import Mathlib

/-!
Verification of the flow-execution engine of the `aestivus` repository.

The Python sources embedded here (shallowly) are:
- `src-python/api/execution.py` : `topological_sort`, `get_upstream_output`,
  `execute_flow`
- `src-python/adapters/base.py` : `safe_execute`
- `src-python/adapters/__init__.py` : `get_adapter` and the adapter registry
- `src-python/api/websocket.py` : `ConnectionManager` (pub/sub fan-out)
- `src-python/api/tasks.py` : `_run_task` / `cancel_task` lifecycle

Machine-level notes on the embedding:
- Python `dict` preserves insertion order; it is modelled by association
  lists (`alookup` returns the first binding, `aset` replaces in place or
  appends a new binding at the end, exactly like `d[k] = v`).
- Python `set` iteration order is NOT specified (for `str` elements it
  depends on the per-process hash seed).  `topological_sort` iterates the
  set `{node.id for node in nodes}`; that iteration order is therefore an
  explicit parameter `ids` of the embedding, constrained by `SetOrderOf`
  to be a duplicate-free enumeration of the node ids.
- Python `int` is modelled by `Int` where subtraction matters
  (the in-degree table of Kahn's algorithm).
-/

namespace Aestivus

/-- A JSON-like value, standing for the `Any`-typed configuration and data
values that flow through the Python code untouched. -/
inductive JVal where
  | vstr : String → JVal
  | vint : Int → JVal
  | vbool : Bool → JVal
  | vnull : JVal
  | vobj : List (String × JVal) → JVal

/-- `FlowNode` of `api/execution.py` (pydantic model): a node of the
submitted graph, with unique id, adapter type and configuration dict. -/
structure FlowNode where
  id : String
  type : String
  config : List (String × JVal)

/-- `FlowEdge` of `api/execution.py`: a directed edge of the submitted
graph. -/
structure FlowEdge where
  source : String
  target : String
deriving DecidableEq

/-- First binding of a key in an association list; models Python
`d[k]` / `k in d` over an insertion-ordered dict. -/
def alookup {β : Type} : List (String × β) → String → Option β
  | [], _ => none
  | (w, b) :: rest, k => if w = k then some b else alookup rest k

/-- Python `d[k] = v` on an insertion-ordered dict: an existing key keeps
its position and gets the new value, a new key is appended at the end. -/
def aset {β : Type} : List (String × β) → String → β → List (String × β)
  | [], k, v => [(k, v)]
  | (w, b) :: rest, k, v =>
    if w = k then (w, v) :: rest else (w, b) :: aset rest k v

/-- Python `in_degree[t] += 1`: bump the first binding of the key, no-op
when the key is absent (in the source the key is always present). -/
def incIndeg : List (String × Int) → String → List (String × Int)
  | [], _ => []
  | (w, k) :: rest, v =>
    if w = v then (w, k + 1) :: rest else (w, k) :: incIndeg rest v

/-- Python `in_degree[v] -= 1` written as an explicit update: replace the
first binding of the key, no-op when the key is absent. -/
def setIndeg : List (String × Int) → String → Int → List (String × Int)
  | [], _, _ => []
  | (w, k) :: rest, v, n =>
    if w = v then (w, n) :: rest else (w, k) :: setIndeg rest v n

/-- Guard of `topological_sort`: the edge joins two known node ids
(`edge.source in node_ids and edge.target in node_ids`). -/
def bothKnown (ids : List String) (e : FlowEdge) : Bool :=
  ids.contains e.source && ids.contains e.target

/-- The in-degree table built by the first loop of `topological_sort`
(execution.py lines 84-91): every known id starts at 0, then each edge
between known ids bumps the in-degree of its target. -/
def buildIndeg (ids : List String) (edges : List FlowEdge) : List (String × Int) :=
  edges.foldl
    (fun m e => if bothKnown ids e then incIndeg m e.target else m)
    (ids.map (fun v => (v, (0 : Int))))

/-- The adjacency list `graph[u]` built by the same loop: targets of the
known edges leaving `u`, in edge submission order. -/
def adj (ids : List String) (edges : List FlowEdge) (u : String) : List String :=
  (edges.filter (fun e => bothKnown ids e && e.source == u)).map FlowEdge.target

/-- Body of the inner `for neighbor in graph[node_id]` loop of Kahn's
algorithm (execution.py lines 101-104): decrement each successor's
in-degree and enqueue it at the back when the in-degree reaches 0.
Returns the updated in-degree table and queue. -/
def processSuccs : List String → List (String × Int) → List String →
    List (String × Int) × List String
  | [], indeg, queue => (indeg, queue)
  | v :: rest, indeg, queue =>
    match alookup indeg v with
    | none => processSuccs rest indeg queue
    | some k =>
      processSuccs rest (setIndeg indeg v (k - 1))
        (if k - 1 = 0 then queue ++ [v] else queue)

/-- Sum of the (clamped) in-degrees; the termination measure of the
`while queue` loop. -/
def indegWeight (indeg : List (String × Int)) : Nat :=
  (indeg.map (fun p => p.2.toNat)).sum

/-- The `while queue` loop of Kahn's algorithm (execution.py lines
97-104): pop the queue head, append it to the result, then process its
successors. -/
def kahnLoop (ids : List String) (edges : List FlowEdge) :
    List (String × Int) → List String → List String → List String
  | _, [], result => result
  | indeg, u :: queue, result =>
    let p := processSuccs (adj ids edges u) indeg queue
    kahnLoop ids edges p.1 p.2 (result ++ [u])
termination_by indeg queue _ => queue.length + indegWeight indeg
decreasing_by
  simp_wf
  have hset : ∀ (m : List (String × Int)) (v : String) (k n : Int),
      alookup m v = some k →
      indegWeight (setIndeg m v n) + k.toNat ≤ indegWeight m + n.toNat := by
    intro m
    induction m with
    | nil => intro v k n h; simp [alookup] at h
    | cons hd tl ih =>
      intro v k n h
      by_cases hv : hd.1 = v
      · simp only [alookup, hv, if_pos rfl] at h
        cases h
        simp [setIndeg, hv, indegWeight]
        omega
      · simp only [alookup, hv, if_neg hv] at h
        have := ih v k n h
        simp [setIndeg, hv, indegWeight] at this ⊢
        omega
  have key : ∀ (succs : List String) (indeg : List (String × Int)) (queue : List String),
      (processSuccs succs indeg queue).2.length +
          indegWeight (processSuccs succs indeg queue).1 ≤
        queue.length + indegWeight indeg := by
    intro succs
    induction succs with
    | nil => intro indeg queue; simp [processSuccs]
    | cons v rest ih =>
      intro indeg queue
      simp only [processSuccs]
      cases hv : alookup indeg v with
      | none => exact ih indeg queue
      | some k =>
        simp only []
        have h1 := ih (setIndeg indeg v (k - 1))
          (if k - 1 = 0 then queue ++ [v] else queue)
        have h2 := hset indeg v k (k - 1) hv
        by_cases hz : k - 1 = 0
        · simp only [if_pos hz] at h1 ⊢
          simp only [List.length_append, List.length_cons, List.length_nil] at h1
          have : k.toNat = 1 := by omega
          omega
        · simp only [if_neg hz] at h1 ⊢
          have : (k - 1).toNat ≤ k.toNat := by omega
          omega
  have := key (adj ids edges u) indeg queue
  omega

/-- The `topological_sort` function of `api/execution.py` (lines 69-109).
`ids` is the iteration order of the Python set `{node.id for node in
nodes}` (unspecified by Python, hence a parameter); `edges` is the
submitted edge list.  Returns the schedule, or the cycle error raised as
`ValueError` by the source. -/
def topological_sort (ids : List String) (edges : List FlowEdge) :
    Except String (List String) :=
  let indeg := buildIndeg ids edges
  let queue := (indeg.filter (fun p => p.2 == 0)).map Prod.fst
  let result := kahnLoop ids edges indeg queue []
  if result.length = ids.length then Except.ok result
  else Except.error "流程中存在循环依赖"

/-- Relation between the set-iteration-order parameter `ids` and the
submitted node list: `ids` enumerates, without duplicates, exactly the
node ids (in some order chosen by the Python hash of the strings). -/
def SetOrderOf (ids : List String) (nodes : List FlowNode) : Prop :=
  ids.Nodup ∧ ids.Perm ((nodes.map FlowNode.id).dedup)

/-- One known edge step of the submitted graph: an edge of the list joins
`s` to `t` and both endpoints are known node ids. -/
def knownEdgeRel (ids : List String) (edges : List FlowEdge) (s t : String) : Prop :=
  ∃ e ∈ edges, e.source = s ∧ e.target = t ∧ bothKnown ids e = true

/-- The graph restricted to known ids has no directed cycle. -/
def AcyclicKnown (ids : List String) (edges : List FlowEdge) : Prop :=
  ∀ v, ¬ Relation.TransGen (knownEdgeRel ids edges) v v

/-- Number of known edges into `v` whose source has not yet been popped;
the ground truth tracked by the mutable `in_degree` dict. -/
def pendCount (ids : List String) (edges : List FlowEdge) (done : List String)
    (v : String) : Nat :=
  (edges.filter (fun e =>
    bothKnown ids e && e.target == v && !(done.contains e.source))).length

/-- `NodeExecuteResponse` of `api/execution.py`: the per-node result
record stored in `node_results`. -/
structure NodeExecuteResponse where
  success : Bool
  message : String
  data : Option JVal
  stats : List (String × Int)
  output_path : Option String
  logs : List String

/-- `FlowExecuteResponse` of `api/execution.py`: the whole-flow result. -/
structure FlowExecuteResponse where
  success : Bool
  message : String
  node_results : List (String × NodeExecuteResponse)
  execution_order : List String

/-- One event pushed through the WebSocket helpers `send_status`,
`send_log`, `send_progress` of `api/websocket.py` (timestamps are not
modelled). -/
inductive Event where
  | status (task_id : String) (node_id : Option String) (status : String)
      (message : String)
  | log (task_id : String) (node_id : Option String) (message : String)
  | progress (task_id : String) (node_id : Option String) (progress : Int)
      (message : String)

/-- Python truthiness of the `Optional[str]` value `output_path`:
true exactly for a present, non-empty string. -/
def optTruthy : Option String → Bool
  | none => false
  | some s => s != ""

/-- `get_upstream_output` of `api/execution.py` (lines 112-133): walk the
edges in submission order and return the `output_path` of the first edge
into `node_id` whose source already has a successful result with a truthy
`output_path`. -/
def get_upstream_output :
    String → List FlowEdge → List (String × NodeExecuteResponse) → Option String
  | _, [], _ => none
  | node_id, e :: rest, node_results =>
    if e.target == node_id then
      match alookup node_results e.source with
      | some r =>
        if r.success && optTruthy r.output_path then r.output_path
        else get_upstream_output node_id rest node_results
      | none => get_upstream_output node_id rest node_results
    else get_upstream_output node_id rest node_results

/-- Membership test `"path" in config` on the config dict. -/
def containsKey {β : Type} (m : List (String × β)) (k : String) : Bool :=
  (alookup m k).isSome

/-- The effective configuration built by `execute_flow` (lines 275-279):
start from `dict(node.config)` and, when the upstream output is truthy
and `"path"` is absent, set `config["path"]` to it. -/
def effectiveConfig (node_id : String) (config : List (String × JVal))
    (edges : List FlowEdge) (node_results : List (String × NodeExecuteResponse)) :
    List (String × JVal) :=
  let upstream := get_upstream_output node_id edges node_results
  if optTruthy upstream && !(containsKey config "path") then
    aset config "path" (JVal.vstr (upstream.getD ""))
  else config

/-- Definition written from the spec sentence, for comparison with
`get_upstream_output`: the artifact locator of the first edge, in edge
submission order, whose target is this node and whose source already has
a result with `success=true` and a non-empty artifact locator. -/
def firstUpstreamLocatorSpec (node_id : String) (edges : List FlowEdge)
    (node_results : List (String × NodeExecuteResponse)) : Option String :=
  ((edges.filter (fun e =>
      e.target == node_id &&
        (match alookup node_results e.source with
         | some r => r.success && optTruthy r.output_path
         | none => false))).head?).bind
    (fun e => (alookup node_results e.source).bind NodeExecuteResponse.output_path)

/-- `AdapterOutput` of `adapters/base.py`: what an adapter returns. -/
structure AdapterOutput where
  success : Bool
  message : String
  data : Option JVal
  stats : List (String × Int)
  output_path : Option String

/-- Outcome of one `await adapter.execute(...)` call as seen by
`safe_execute`: either a returned `AdapterOutput`, or an exception of one
of the kinds its `except` clauses distinguish.  `raiseOther` carries the
exception class name and `str(e)`; `BaseException`s that are not
`Exception`s (process-exit signals) are out of scope. -/
inductive ExecOutcome where
  | ret (out : AdapterOutput)
  | raiseImportError (msg : String)
  | raiseFileNotFound (msg : String)
  | raisePermissionError (msg : String)
  | raiseAdapterError (msg : String) (details : List (String × JVal))
  | raiseOther (excName : String) (msg : String)

/-- True when `adapter.execute` raised instead of returning. -/
def isRaise : ExecOutcome → Bool
  | .ret _ => false
  | _ => true

/-- True exactly for an `AdapterError` carrying an empty message. -/
def isEmptyAdapterError : ExecOutcome → Bool
  | .raiseAdapterError "" _ => true
  | _ => false

/-- `safe_execute` of `adapters/base.py` (lines 155-200): convert every
caught exception into a failed `AdapterOutput`; an `AdapterError` keeps
its own message and carries its `details` as `data`. -/
def safe_execute : ExecOutcome → AdapterOutput
  | .ret out => out
  | .raiseImportError m =>
      ⟨false, "模块导入失败: " ++ m, none, [], none⟩
  | .raiseFileNotFound m =>
      ⟨false, "路径不存在: " ++ m, none, [], none⟩
  | .raisePermissionError m =>
      ⟨false, "权限不足: " ++ m, none, [], none⟩
  | .raiseAdapterError m d =>
      ⟨false, m, some (JVal.vobj d), [], none⟩
  | .raiseOther ty m =>
      ⟨false, "执行异常: " ++ ty ++ ": " ++ m, none, [], none⟩

/-- State carried by the `for node_id in execution_order` loop of
`execute_flow`: the `node_results` dict, the `all_success` flag and the
events emitted so far. -/
structure FlowLoopState where
  node_results : List (String × NodeExecuteResponse)
  all_success : Bool
  events : List Event

/-- A failed `NodeExecuteResponse` as built in the `except` branch of the
flow loop (lines 318-321): only `success` and `message` are set. -/
def failResponse (msg : String) : NodeExecuteResponse :=
  ⟨false, msg, none, [], none, []⟩

/-- Per-node-execution loop of `execute_flow` (lines 264-323).
`resolveAdapter` abstracts `get_adapter(node.type)` (`.error msg` when it
raises); `execOracle` abstracts `input_class(**config)` followed by
`safe_execute` on the resolved adapter (`.error msg` when input
construction raises; `.ok out` is the `AdapterOutput` that `safe_execute`
always returns).  `none` models the uncaught `KeyError` that
`node_map[node_id]` would raise for an id with no node (unreachable for
schedules produced by `topological_sort` on the node ids).  Events
emitted by adapter callbacks are scheduled onto the event loop from
worker threads and are not modelled. -/
def runFlowNodes (resolveAdapter : String → Except String Unit)
    (execOracle : String → List (String × JVal) → Except String AdapterOutput)
    (nodes : List FlowNode) (edges : List FlowEdge) (task_id : String)
    (total : Nat) :
    List String → Nat → FlowLoopState → Option FlowLoopState
  | [], _, st => some st
  | node_id :: rest, idx, st =>
    match (nodes.foldl (fun acc n => if n.id == node_id then some n else acc) none : Option FlowNode) with
    | none => none
    | some node =>
      let ev0 := st.events ++ [Event.status task_id (some node_id) "running"
        ("执行节点 " ++ toString (idx + 1) ++ "/" ++ toString total)]
      match resolveAdapter node.type with
      | .error m =>
        let msg := "执行失败: " ++ m
        runFlowNodes resolveAdapter execOracle nodes edges task_id total rest (idx + 1)
          ⟨aset st.node_results node_id (failResponse msg), false,
            ev0 ++ [Event.status task_id (some node_id) "error" msg]⟩
      | .ok _ =>
        let upstream := get_upstream_output node_id edges st.node_results
        let config := effectiveConfig node_id node.config edges st.node_results
        let ev1 :=
          if optTruthy upstream && !(containsKey node.config "path") then
            ev0 ++ [Event.log task_id (some node_id)
              ("使用上游输出路径: " ++ upstream.getD "")]
          else ev0
        match execOracle node.type config with
        | .error m =>
          let msg := "执行失败: " ++ m
          runFlowNodes resolveAdapter execOracle nodes edges task_id total rest (idx + 1)
            ⟨aset st.node_results node_id (failResponse msg), false,
              ev1 ++ [Event.status task_id (some node_id) "error" msg]⟩
        | .ok result =>
          let nr : NodeExecuteResponse :=
            ⟨result.success, result.message, result.data, result.stats,
              result.output_path, []⟩
          let st2 : FlowLoopState :=
            ⟨aset st.node_results node_id nr,
              if result.success then st.all_success else false,
              ev1 ++ [Event.status task_id (some node_id)
                (if result.success then "completed" else "error") result.message]⟩
          runFlowNodes resolveAdapter execOracle nodes edges task_id total rest (idx + 1) st2

/-- `execute_flow` of `api/execution.py` (lines 222-335).  `setOrder` is
the iteration order of the node-id set used by `topological_sort`.
Returns the response together with the events the orchestrator itself
emits, or `none` for the one uncaught exception (see `runFlowNodes`). -/
def execute_flow (setOrder : List String)
    (resolveAdapter : String → Except String Unit)
    (execOracle : String → List (String × JVal) → Except String AdapterOutput)
    (nodes : List FlowNode) (edges : List FlowEdge) (task_id : String) :
    Option (FlowExecuteResponse × List Event) :=
  if nodes.isEmpty then
    some (⟨true, "流程为空，无需执行", [], []⟩, [])
  else
    match topological_sort setOrder edges with
    | .error e => some (⟨false, e, [], []⟩, [Event.status task_id none "error" e])
    | .ok order =>
      let ev0 : List Event :=
        [Event.status task_id none "running"
            ("开始执行流程，共 " ++ toString nodes.length ++ " 个节点"),
          Event.log task_id none ("执行顺序: " ++ String.intercalate " → " order)]
      match runFlowNodes resolveAdapter execOracle nodes edges task_id
          order.length order 0 ⟨[], true, ev0⟩ with
      | none => none
      | some st =>
        let final_message := if st.all_success then "流程执行完成" else "部分节点执行失败"
        some (⟨st.all_success, final_message, st.node_results, order⟩,
          st.events ++ [Event.status task_id none
            (if st.all_success then "completed" else "error") final_message])

/-- An adapter instance; its only observable property here is its
identity (the cache must return the same instance). -/
structure AdapterInstance where
  tag : Nat
deriving DecidableEq

/-- The literal `_ADAPTER_REGISTRY` dict of `adapters/__init__.py`
(name → dotted class path). -/
def ADAPTER_REGISTRY : List (String × String) :=
  [("repacku", "adapters.repacku_adapter.RepackuAdapter"),
   ("rawfilter", "adapters.rawfilter_adapter.RawfilterAdapter"),
   ("crashu", "adapters.crashu_adapter.CrashuAdapter"),
   ("trename", "adapters.trename_adapter.TrenameAdapter"),
   ("enginev", "adapters.enginev_adapter.EngineVAdapter"),
   ("migratef", "adapters.migratef_adapter.MigrateFAdapter"),
   ("formatv", "adapters.formatv_adapter.FormatVAdapter"),
   ("findz", "adapters.findz_adapter.FindzAdapter"),
   ("bandia", "adapters.bandia_adapter.BandiaAdapter"),
   ("dissolvef", "adapters.dissolvef_adapter.DissolvefAdapter"),
   ("sleept", "adapters.sleept_adapter.SleeptAdapter"),
   ("owithu", "adapters.owithu_adapter.OwithuAdapter"),
   ("linku", "adapters.linku_adapter.LinkuAdapter"),
   ("scoolp", "adapters.scoolp_adapter.ScoolpAdapter"),
   ("reinstallp", "adapters.reinstallp_adapter.ReinstallpAdapter"),
   ("recycleu", "adapters.recycleu_adapter.RecycleuAdapter"),
   ("encodeb", "adapters.encodeb_adapter.EncodebAdapter"),
   ("kavvka", "adapters.kavvka_adapter.KavvkaAdapter")]

/-- Result of one `get_adapter` call: the instance, the `ValueError` for
an unregistered name, or the re-raised `ImportError` for a failed lazy
load.  The `ValueError` message in the source also appends the list of
registered names; that suffix is omitted here. -/
inductive GetAdapterResult where
  | ok (inst : AdapterInstance)
  | valueError (msg : String)
  | importError (msg : String)
deriving DecidableEq

/-- `get_adapter` of `adapters/__init__.py` (lines 64-94) together with
its effect on the module-level `_adapter_instances` cache.  `load`
abstracts `_import_adapter_class(path)` followed by instantiation, keyed
by the registered dotted path. -/
def get_adapter (load : String → Except String AdapterInstance)
    (cache : List (String × AdapterInstance)) (name : String) :
    GetAdapterResult × List (String × AdapterInstance) :=
  match alookup cache name with
  | some inst => (.ok inst, cache)
  | none =>
    match alookup ADAPTER_REGISTRY name with
    | none => (.valueError ("未知的适配器: " ++ name), cache)
    | some path =>
      match load path with
      | .ok inst => (.ok inst, aset cache name inst)
      | .error e => (.importError ("导入适配器 " ++ name ++ " 失败: " ++ e), cache)

/-- Python `set.add` on a set modelled as a duplicate-free list. -/
def setAdd (l : List Nat) (x : Nat) : List Nat :=
  if l.contains x then l else l ++ [x]

/-- State of the `ConnectionManager` of `api/websocket.py` (lines 18-94):
per-task socket sets plus the global socket set.  Sockets are identified
by numbers.  Note the manager stores no events at all. -/
structure ConnManagerState where
  active : List (String × List Nat)
  globals : List Nat

/-- `ConnectionManager.connect`: add the socket to the task set (created
on demand) or, without a task id, to the global set. -/
def cmConnect (st : ConnManagerState) (ws : Nat) (task : Option String) :
    ConnManagerState :=
  match task with
  | some t =>
    match alookup st.active t with
    | some conns => ⟨aset st.active t (setAdd conns ws), st.globals⟩
    | none => ⟨aset st.active t [ws], st.globals⟩
  | none => ⟨st.active, setAdd st.globals ws⟩

/-- `ConnectionManager.disconnect`: discard the socket from the task set
(dropping the set when it empties) or from the global set. -/
def cmDisconnect (st : ConnManagerState) (ws : Nat) (task : Option String) :
    ConnManagerState :=
  match task with
  | some t =>
    match alookup st.active t with
    | some conns =>
      let conns2 := conns.filter (fun w => w != ws)
      if conns2.isEmpty then
        ⟨st.active.filter (fun p => p.1 != t), st.globals⟩
      else ⟨aset st.active t conns2, st.globals⟩
    | none => ⟨st.active, st.globals.filter (fun w => w != ws)⟩
  | none => ⟨st.active, st.globals.filter (fun w => w != ws)⟩

/-- Recipients of `ConnectionManager.send_to_task`: the sockets currently
subscribed to the task plus the global sockets
(`self.active_connections.get(task_id, set()) | self.global_connections`). -/
def cmRecipients (st : ConnManagerState) (task : String) : List Nat :=
  ((alookup st.active task).getD []) ++
    (st.globals.filter (fun w => !(((alookup st.active task).getD []).contains w)))

/-- One operation against the connection manager. -/
inductive WsOp where
  | connect (ws : Nat) (task : Option String)
  | disconnect (ws : Nat) (task : Option String)
  | publish (task : String) (msg : String)

/-- Run a sequence of operations, accumulating the delivery log: one
`(socket, message)` entry per socket a published message was sent to.
`publish` models `send_to_task` (the path taken by `send_log`,
`send_progress`, `send_status`). -/
def runWsOps (st : ConnManagerState) :
    List WsOp → ConnManagerState × List (Nat × String)
  | [] => (st, [])
  | op :: rest =>
    match op with
    | .connect ws task => runWsOps (cmConnect st ws task) rest
    | .disconnect ws task => runWsOps (cmDisconnect st ws task) rest
    | .publish task msg =>
      let here := (cmRecipients st task).map (fun w => (w, msg))
      let (st2, later) := runWsOps st rest
      (st2, here ++ later)

/-- Messages a given socket received, in delivery order. -/
def deliveredTo (ws : Nat) (log : List (Nat × String)) : List String :=
  (log.filter (fun p => p.1 == ws)).map Prod.snd

/-- The socket does not appear anywhere in the manager state. -/
def wsAbsent (st : ConnManagerState) (ws : Nat) : Bool :=
  !(st.globals.contains ws) &&
    st.active.all (fun p => !(p.2.contains ws))

/-- The operation list never connects the given socket. -/
def neverConnects (ws : Nat) (ops : List WsOp) : Bool :=
  ops.all (fun op =>
    match op with
    | .connect w _ => w != ws
    | _ => true)

/-- Task lifecycle status of `api/tasks.py` (`TaskStatus.status`). -/
inductive TStatus where
  | pending
  | running
  | completed
  | failed
  | cancelled
deriving DecidableEq

/-- The three atomic segments of `_run_task` (tasks.py lines 85-130)
between its `await asyncio.sleep` suspension points, as updates of the
task status: set `running` (line 91), broadcast an output event (no
status change, lines 103-108), set `completed` (line 112).  The happy
path never raises, so the `failed` branch is not reached. -/
def runnerSegs : List (TStatus → TStatus) :=
  [fun _ => TStatus.running,
   fun s => s,
   fun _ => TStatus.completed]

/-- The status update of `cancel_task` (tasks.py lines 147-150): set
`cancelled` only when the current status is `running`. -/
def cancelSeg : TStatus → TStatus :=
  fun s => if s = TStatus.running then TStatus.cancelled else s

/-- Cooperative interleaving of the runner task and one cancel request:
the scheduler string picks, at each step, the runner (`true`) or the
cancel endpoint (`false`); a choice whose program is exhausted leaves the
status unchanged.  Returns the status after every step. -/
def execSched : TStatus → List (TStatus → TStatus) → List (TStatus → TStatus) →
    List Bool → List TStatus
  | _, _, _, [] => []
  | s, f :: runner, cancels, true :: sched =>
    f s :: execSched (f s) runner cancels sched
  | s, [], cancels, true :: sched => s :: execSched s [] cancels sched
  | s, runner, g :: cancels, false :: sched =>
    g s :: execSched (g s) runner cancels sched
  | s, runner, [], false :: sched => s :: execSched s runner [] sched

/-- Terminal statuses of the spec state machine. -/
def isTerminal : TStatus → Bool
  | .completed => true
  | .failed => true
  | .cancelled => true
  | _ => false

/-- `s` occurs at a strictly smaller position than `t` in the list. -/
def beforeIn (l : List String) (s t : String) : Prop :=
  ∃ i j : Nat, i < j ∧ l[i]? = some s ∧ l[j]? = some t

/-- Known edges of `u` leaving towards `v`, counted with multiplicity. -/
def adjCount (ids : List String) (edges : List FlowEdge) (u v : String) : Nat :=
  (edges.filter (fun e =>
    bothKnown ids e && e.source == u && e.target == v)).length

/-- Invariant of the `while queue` loop of Kahn's algorithm, relating the
mutable in-degree table, the queue and the result list. -/
structure KahnInv (ids : List String) (edges : List FlowEdge)
    (indeg : List (String × Int)) (queue result : List String) : Prop where
  ids_nodup : ids.Nodup
  keys_eq : indeg.map Prod.fst = ids
  vals : ∀ v ∈ ids, alookup indeg v = some ((pendCount ids edges result v : Int))
  res_sub : ∀ v ∈ result, v ∈ ids
  res_nodup : result.Nodup
  res_done : ∀ v ∈ result, pendCount ids edges result v = 0
  queue_iff : ∀ v, v ∈ queue ↔
    (v ∈ ids ∧ v ∉ result ∧ pendCount ids edges result v = 0)
  queue_nodup : queue.Nodup
  res_edge : ∀ e ∈ edges, bothKnown ids e = true →
    ∀ j : Nat, result[j]? = some e.target →
      ∃ i : Nat, i < j ∧ result[i]? = some e.source

/-- The initial queue of Kahn's algorithm (execution.py line 94): the
keys of the in-degree table whose degree is 0, in table order. -/
def seedsList (ids : List String) (edges : List FlowEdge) : List String :=
  ((buildIndeg ids edges).filter (fun p => p.2 == 0)).map Prod.fst

/-! ## Association-list lemmas -/

theorem alookup_setIndeg (m : List (String × Int)) (v w : String) (n : Int) :
    alookup (setIndeg m v n) w =
      if w = v then Option.map (fun _ => n) (alookup m w) else alookup m w := by
  induction m with
  | nil => simp [setIndeg, alookup]
  | cons hd tl ih =>
    obtain ⟨a, b⟩ := hd
    rcases eq_or_ne a v with rfl | hav
    · rcases eq_or_ne a w with rfl | haw
      · simp [setIndeg, alookup]
      · simp [setIndeg, alookup, haw, Ne.symm haw]
    · rcases eq_or_ne a w with rfl | haw
      · simp [setIndeg, alookup, hav, Ne.symm hav]
      · simp [setIndeg, alookup, hav, haw, ih]

theorem keys_setIndeg (m : List (String × Int)) (v : String) (n : Int) :
    (setIndeg m v n).map Prod.fst = m.map Prod.fst := by
  induction m with
  | nil => simp [setIndeg]
  | cons hd tl ih =>
    obtain ⟨a, b⟩ := hd
    rcases eq_or_ne a v with rfl | hav
    · simp [setIndeg, ih]
    · simp [setIndeg, hav, ih]

theorem alookup_incIndeg (m : List (String × Int)) (v w : String) :
    alookup (incIndeg m v) w =
      if w = v then Option.map (fun k => k + 1) (alookup m w) else alookup m w := by
  induction m with
  | nil => simp [incIndeg, alookup]
  | cons hd tl ih =>
    obtain ⟨a, b⟩ := hd
    rcases eq_or_ne a v with rfl | hav
    · rcases eq_or_ne a w with rfl | haw
      · simp [incIndeg, alookup]
      · simp [incIndeg, alookup, haw, Ne.symm haw]
    · rcases eq_or_ne a w with rfl | haw
      · simp [incIndeg, alookup, hav, Ne.symm hav]
      · simp [incIndeg, alookup, hav, haw, ih]

theorem keys_incIndeg (m : List (String × Int)) (v : String) :
    (incIndeg m v).map Prod.fst = m.map Prod.fst := by
  induction m with
  | nil => simp [incIndeg]
  | cons hd tl ih =>
    obtain ⟨a, b⟩ := hd
    rcases eq_or_ne a v with rfl | hav
    · simp [incIndeg, ih]
    · simp [incIndeg, hav, ih]

theorem alookup_none_iff {β : Type} (m : List (String × β)) (v : String) :
    alookup m v = none ↔ v ∉ m.map Prod.fst := by
  induction m with
  | nil => simp [alookup]
  | cons hd tl ih =>
    obtain ⟨a, b⟩ := hd
    rcases eq_or_ne a v with rfl | hav
    · simp [alookup]
    · simp [alookup, hav, Ne.symm hav, ih]

theorem alookup_mem {β : Type} (m : List (String × β)) (v : String) (b : β)
    (h : alookup m v = some b) : (v, b) ∈ m := by
  induction m with
  | nil => simp [alookup] at h
  | cons hd tl ih =>
    obtain ⟨a, c⟩ := hd
    rcases eq_or_ne a v with rfl | hav
    · simp [alookup] at h
      subst h
      exact List.mem_cons_self _ _
    · simp [alookup, hav] at h
      exact List.mem_cons_of_mem _ (ih h)

theorem mem_alookup_of_nodup {β : Type} (m : List (String × β)) (v : String) (b : β)
    (hn : (m.map Prod.fst).Nodup) (h : (v, b) ∈ m) : alookup m v = some b := by
  induction m with
  | nil => simp at h
  | cons hd tl ih =>
    obtain ⟨a, c⟩ := hd
    rw [List.map_cons, List.nodup_cons] at hn
    rcases List.mem_cons.mp h with h1 | h1
    · injection h1 with e1 e2
      subst e1
      subst e2
      simp [alookup]
    · have hav : ¬ a = v := by
        rintro rfl
        exact hn.1 (List.mem_map.mpr ⟨(a, b), h1, rfl⟩)
      simp [alookup, hav]
      exact ih hn.2 h1

theorem aset_eq_append {β : Type} (m : List (String × β)) (k : String) (v : β)
    (h : containsKey m k = false) : aset m k v = m ++ [(k, v)] := by
  induction m with
  | nil => simp [aset]
  | cons hd tl ih =>
    obtain ⟨a, c⟩ := hd
    rcases eq_or_ne a k with rfl | hak
    · exfalso
      simp [containsKey, alookup] at h
    · have htl : containsKey tl k = false := by
        simpa [containsKey, alookup, hak] using h
      simp [aset, hak, ih htl]

theorem alookup_aset_self {β : Type} (m : List (String × β)) (k : String) (v : β) :
    alookup (aset m k v) k = some v := by
  induction m with
  | nil => simp [aset, alookup]
  | cons hd tl ih =>
    obtain ⟨a, c⟩ := hd
    rcases eq_or_ne a k with rfl | hak
    · simp [aset, alookup]
    · simp [aset, alookup, hak, ih]

theorem alookup_aset_ne {β : Type} (m : List (String × β)) (k w : String) (v : β)
    (h : w ≠ k) : alookup (aset m k v) w = alookup m w := by
  induction m with
  | nil => simp [aset, alookup, Ne.symm h]
  | cons hd tl ih =>
    obtain ⟨a, c⟩ := hd
    rcases eq_or_ne a k with rfl | hak
    · simp [aset, alookup, Ne.symm h]
    · rcases eq_or_ne a w with rfl | haw
      · simp [aset, alookup, hak]
      · simp [aset, alookup, hak, haw, ih]

/-! ## The initial in-degree table -/

theorem alookup_map_zero (ids : List String) (w : String) :
    alookup (ids.map (fun v => (v, (0 : Int)))) w =
      if w ∈ ids then some 0 else none := by
  induction ids with
  | nil => simp [alookup]
  | cons a tl ih =>
    rcases eq_or_ne a w with rfl | haw
    · simp [alookup]
    · simp [alookup, haw, Ne.symm haw, ih]

theorem keys_foldl_inc (edges : List FlowEdge) (ids : List String) :
    ∀ m : List (String × Int),
      ((edges.foldl (fun m e => if bothKnown ids e then incIndeg m e.target else m)
        m).map Prod.fst) = m.map Prod.fst := by
  induction edges with
  | nil => intro m; rfl
  | cons e rest ih =>
    intro m
    simp only [List.foldl_cons]
    by_cases hb : bothKnown ids e = true
    · rw [if_pos hb, ih, keys_incIndeg]
    · rw [if_neg hb, ih]

theorem keys_buildIndeg (ids : List String) (edges : List FlowEdge) :
    (buildIndeg ids edges).map Prod.fst = ids := by
  rw [buildIndeg, keys_foldl_inc]
  simp [Function.comp_def]

theorem alookup_foldl_inc (edges : List FlowEdge) (ids : List String) (w : String) :
    ∀ m : List (String × Int),
      alookup (edges.foldl
          (fun m e => if bothKnown ids e then incIndeg m e.target else m) m) w =
        Option.map
          (fun k => k +
            ((edges.filter (fun e => bothKnown ids e && e.target == w)).length : Int))
          (alookup m w) := by
  induction edges with
  | nil =>
    intro m
    cases h : alookup m w <;> simp [h]
  | cons e rest ih =>
    intro m
    simp only [List.foldl_cons, List.filter_cons]
    by_cases hb : bothKnown ids e = true
    · by_cases ht : e.target = w
      · rw [if_pos hb, ih, alookup_incIndeg, if_pos ht.symm]
        have hc : (bothKnown ids e && e.target == w) = true := by simp [hb, ht]
        rw [if_pos hc]
        cases h : alookup m w with
        | none => simp [h]
        | some k =>
          simp only [h, Option.map_some', List.length_cons]
          congr 1
          push_cast
          ring
      · rw [if_pos hb, ih, alookup_incIndeg,
          if_neg (fun h : w = e.target => ht h.symm)]
        have hc : ¬ (bothKnown ids e && e.target == w) = true := by simp [hb, ht]
        rw [if_neg hc]
    · rw [if_neg hb, ih]
      have hc : ¬ (bothKnown ids e && e.target == w) = true := by simp [hb]
      rw [if_neg hc]

theorem alookup_buildIndeg (ids : List String) (edges : List FlowEdge) (w : String) :
    alookup (buildIndeg ids edges) w =
      if w ∈ ids then some ((pendCount ids edges [] w : Int)) else none := by
  rw [buildIndeg, alookup_foldl_inc, alookup_map_zero]
  by_cases hw : w ∈ ids
  · rw [if_pos hw, if_pos hw]
    have hfc : edges.filter
          (fun e => bothKnown ids e && e.target == w && !([].contains e.source)) =
        edges.filter (fun e => bothKnown ids e && e.target == w) := by
      apply List.filter_congr
      intro e _
      simp [List.contains]
    simp [pendCount, hfc]
  · rw [if_neg hw, if_neg hw]
    simp

/-! ## Pending-count lemmas -/

theorem contains_append (l1 l2 : List String) (a : String) :
    (l1 ++ l2).contains a = (l1.contains a || l2.contains a) := by
  simp [List.contains, List.elem_eq_mem, List.mem_append]

theorem contains_singleton (u a : String) :
    ([u].contains a) = (a == u) := by
  by_cases h : a = u <;> simp [List.contains, List.elem_eq_mem, h]

theorem filter_length_mono {α : Type} (l : List α) (p q : α → Bool)
    (h : ∀ a ∈ l, p a = true → q a = true) :
    (l.filter p).length ≤ (l.filter q).length := by
  rw [← List.countP_eq_length_filter, ← List.countP_eq_length_filter]
  exact List.countP_mono_left h

theorem filter_length_split {α : Type} (l : List α) (p q : α → Bool) :
    (l.filter p).length =
      (l.filter (fun a => p a && q a)).length +
        (l.filter (fun a => p a && !(q a))).length := by
  induction l with
  | nil => simp
  | cons a rest ih =>
    simp only [List.filter_cons]
    by_cases hp : p a = true
    · by_cases hq : q a = true
      · simp only [hp, hq, Bool.and_self, Bool.not_true, Bool.and_false,
          Bool.and_true, if_true, if_false, List.length_cons]
        simp [ih] <;> omega
      · simp only [hp, Bool.not_eq_true] at hq
        simp [hp, hq, ih] <;> omega
    · simp only [Bool.not_eq_true] at hp
      simp [hp, ih]

theorem pendCount_le_append (ids : List String) (edges : List FlowEdge)
    (done : List String) (u v : String) :
    pendCount ids edges (done ++ [u]) v ≤ pendCount ids edges done v := by
  rw [pendCount, pendCount]
  apply filter_length_mono
  intro e _ hp
  simp only [Bool.and_eq_true, Bool.not_eq_true', contains_append,
    Bool.or_eq_false_iff] at hp
  simp only [Bool.and_eq_true, Bool.not_eq_true']
  exact ⟨hp.1, hp.2.1⟩

theorem pendCount_append (ids : List String) (edges : List FlowEdge)
    (done : List String) (u v : String) (hu : u ∉ done) :
    pendCount ids edges done v =
      pendCount ids edges (done ++ [u]) v + adjCount ids edges u v := by
  rw [pendCount,
    filter_length_split edges _ (fun e => e.source == u), Nat.add_comm]
  congr 1
  · rw [pendCount]
    congr 1
    apply List.filter_congr
    intro e _
    simp only [contains_append, contains_singleton, Bool.not_or]
    simp [Bool.and_assoc]
  · rw [adjCount]
    congr 1
    apply List.filter_congr
    intro e _
    by_cases hs : e.source = u
    · have hdone : done.contains e.source = false := by
        simp [List.contains, List.elem_eq_mem, hs, hu]
      simp [hs, hdone, hu, Bool.and_comm, Bool.and_assoc, Bool.and_left_comm]
    · have : (e.source == u) = false := by simp [hs]
      simp [this]

theorem adj_count (ids : List String) (edges : List FlowEdge) (u v : String) :
    (adj ids edges u).count v = adjCount ids edges u v := by
  rw [adj, adjCount]
  induction edges with
  | nil => simp
  | cons e rest ih =>
    simp only [List.filter_cons]
    by_cases hb : (bothKnown ids e && e.source == u) = true
    · rw [if_pos hb, List.map_cons, List.count_cons]
      by_cases ht : e.target = v
      · have hc : (bothKnown ids e && e.source == u && e.target == v) = true := by
          simp [hb, ht]
        rw [if_pos hc]
        simp [ih, ht]
      · have hc : ¬ (bothKnown ids e && e.source == u && e.target == v) = true := by
          simp [ht]
        rw [if_neg hc]
        have : (e.target == v) = false := by simp [ht]
        simp [ih, this]
    · simp only [Bool.not_eq_true] at hb
      have hc : (bothKnown ids e && e.source == u && e.target == v) = false := by
        simp [hb]
      simpa [hb, hc] using ih

theorem adjCount_le_pendCount (ids : List String) (edges : List FlowEdge)
    (done : List String) (u v : String) (hu : u ∉ done) :
    adjCount ids edges u v ≤ pendCount ids edges done v := by
  rw [pendCount_append ids edges done u v hu]
  omega

theorem pendCount_zero_source_done (ids : List String) (edges : List FlowEdge)
    (done : List String) (v : String)
    (h : pendCount ids edges done v = 0) :
    ∀ e ∈ edges, bothKnown ids e = true → e.target = v → e.source ∈ done := by
  intro e he hb ht
  by_contra hsrc
  have hmem : e ∈ edges.filter (fun e =>
      bothKnown ids e && e.target == v && !(done.contains e.source)) := by
    apply List.mem_filter.mpr
    refine ⟨he, ?_⟩
    simp [hb, ht, List.contains, List.elem_eq_mem, hsrc]
  rw [pendCount, List.length_eq_zero] at h
  rw [h] at hmem
  simp at hmem

theorem pendCount_pos_exists (ids : List String) (edges : List FlowEdge)
    (done : List String) (v : String)
    (h : pendCount ids edges done v ≠ 0) :
    ∃ e ∈ edges, bothKnown ids e = true ∧ e.target = v ∧ e.source ∉ done := by
  rw [pendCount] at h
  have : edges.filter (fun e =>
      bothKnown ids e && e.target == v && !(done.contains e.source)) ≠ [] := by
    intro hnil
    rw [hnil] at h
    simp at h
  obtain ⟨e, he⟩ := List.exists_mem_of_ne_nil _ this
  have := List.mem_filter.mp he
  refine ⟨e, this.1, ?_⟩
  have hp := this.2
  simp only [Bool.and_eq_true, Bool.not_eq_true', beq_iff_eq,
    List.contains, List.elem_eq_mem, decide_eq_false_iff_not] at hp
  exact ⟨hp.1.1, hp.1.2, hp.2⟩

/-! ## processSuccs lemmas -/

theorem processSuccs_cons_none (v : String) (rest : List String)
    (indeg : List (String × Int)) (queue : List String)
    (h : alookup indeg v = none) :
    processSuccs (v :: rest) indeg queue = processSuccs rest indeg queue := by
  simp [processSuccs, h]

theorem processSuccs_cons_some (v : String) (rest : List String)
    (indeg : List (String × Int)) (queue : List String) (k : Int)
    (h : alookup indeg v = some k) :
    processSuccs (v :: rest) indeg queue =
      processSuccs rest (setIndeg indeg v (k - 1))
        (if k - 1 = 0 then queue ++ [v] else queue) := by
  simp [processSuccs, h]

theorem processSuccs_keys (succs : List String) :
    ∀ (indeg : List (String × Int)) (queue : List String),
      (processSuccs succs indeg queue).1.map Prod.fst = indeg.map Prod.fst := by
  induction succs with
  | nil => intro indeg queue; rfl
  | cons v rest ih =>
    intro indeg queue
    cases hv : alookup indeg v with
    | none => rw [processSuccs_cons_none v rest indeg queue hv]; exact ih indeg queue
    | some k =>
      rw [processSuccs_cons_some v rest indeg queue k hv, ih, keys_setIndeg]

theorem processSuccs_queue_append (succs : List String) :
    ∀ (indeg : List (String × Int)) (queue : List String),
      (processSuccs succs indeg queue).2 =
        queue ++ (processSuccs succs indeg []).2 := by
  induction succs with
  | nil => intro indeg queue; simp [processSuccs]
  | cons v rest ih =>
    intro indeg queue
    cases hv : alookup indeg v with
    | none =>
      rw [processSuccs_cons_none v rest indeg queue hv,
        processSuccs_cons_none v rest indeg [] hv]
      exact ih indeg queue
    | some k =>
      rw [processSuccs_cons_some v rest indeg queue k hv,
        processSuccs_cons_some v rest indeg [] k hv]
      by_cases hz : k - 1 = 0
      · rw [if_pos hz, if_pos hz, ih _ (queue ++ [v]), ih _ ([] ++ [v])]
        simp
      · rw [if_neg hz, if_neg hz]
        exact ih _ queue

theorem processSuccs_lookup (succs : List String) :
    ∀ (indeg : List (String × Int)) (queue : List String) (v : String),
      alookup (processSuccs succs indeg queue).1 v =
        Option.map (fun k => k - (succs.count v : Int)) (alookup indeg v) := by
  induction succs with
  | nil =>
    intro indeg queue v
    cases h : alookup indeg v <;> simp [processSuccs, h]
  | cons s rest ih =>
    intro indeg queue v
    cases hs : alookup indeg s with
    | none =>
      rw [processSuccs_cons_none s rest indeg queue hs, ih]
      rcases eq_or_ne s v with rfl | hsv
      · rw [hs]
        simp
      · rw [List.count_cons]
        simp [hsv]
    | some k0 =>
      rw [processSuccs_cons_some s rest indeg queue k0 hs, ih, alookup_setIndeg]
      rcases eq_or_ne v s with rfl | hvs
      · rw [if_pos rfl, hs]
        simp [List.count_cons]
        push_cast
        ring
      · rw [if_neg hvs, List.count_cons]
        simp [Ne.symm hvs]

theorem processSuccs_extra_mem (succs : List String) :
    ∀ (indeg : List (String × Int)) (v : String),
      v ∈ (processSuccs succs indeg []).2 ↔
        ∃ k : Int, alookup indeg v = some k ∧ 1 ≤ k ∧
          k ≤ (succs.count v : Int) := by
  induction succs with
  | nil =>
    intro indeg v
    constructor
    · intro h
      simp [processSuccs] at h
    · rintro ⟨k, _, h1, h2⟩
      simp at h2
      omega
  | cons s rest ih =>
    intro indeg v
    cases hs : alookup indeg s with
    | none =>
      rw [processSuccs_cons_none s rest indeg [] hs, ih]
      constructor
      · rintro ⟨k, hk, h1, h2⟩
        refine ⟨k, hk, h1, ?_⟩
        rw [List.count_cons]
        by_cases hsv : (s == v) = true <;> simp [hsv] <;> push_cast <;> omega
      · rintro ⟨k, hk, h1, h2⟩
        refine ⟨k, hk, h1, ?_⟩
        rcases eq_or_ne s v with rfl | hsv
        · rw [hk] at hs
          cases hs
        · rw [List.count_cons] at h2
          simp [hsv] at h2
          exact_mod_cast h2
    | some k0 =>
      rw [processSuccs_cons_some s rest indeg [] k0 hs]
      by_cases hz : k0 - 1 = 0
      · rw [if_pos hz, processSuccs_queue_append]
        simp only [List.nil_append, List.mem_append, List.mem_singleton]
        rw [ih]
        constructor
        · rintro (rfl | ⟨k, hk, h1, h2⟩)
          · refine ⟨k0, hs, by omega, ?_⟩
            simp [List.count_cons]
            push_cast
            omega
          · rcases eq_or_ne v s with rfl | hvs
            · rw [alookup_setIndeg, if_pos rfl, hs] at hk
              simp at hk
              omega
            · rw [alookup_setIndeg, if_neg hvs] at hk
              refine ⟨k, hk, h1, ?_⟩
              rw [List.count_cons]
              simp [Ne.symm hvs]
              exact_mod_cast h2
        · rintro ⟨k, hk, h1, h2⟩
          rcases eq_or_ne v s with rfl | hvs
          · left
            rfl
          · right
            refine ⟨k, ?_, h1, ?_⟩
            · rw [alookup_setIndeg, if_neg hvs]
              exact hk
            · rw [List.count_cons] at h2
              simp [Ne.symm hvs] at h2
              exact_mod_cast h2
      · rw [if_neg hz, ih]
        constructor
        · rintro ⟨k, hk, h1, h2⟩
          rcases eq_or_ne v s with rfl | hvs
          · rw [alookup_setIndeg, if_pos rfl, hs] at hk
            simp at hk
            refine ⟨k0, hs, by omega, ?_⟩
            simp [List.count_cons]
            push_cast
            omega
          · rw [alookup_setIndeg, if_neg hvs] at hk
            refine ⟨k, hk, h1, ?_⟩
            rw [List.count_cons]
            by_cases hsv : (s == v) = true <;> simp [hsv] <;> push_cast <;> omega
        · rintro ⟨k, hk, h1, h2⟩
          rcases eq_or_ne v s with rfl | hvs
          · rw [hs] at hk
            injection hk with hkk
            subst hkk
            refine ⟨k0 - 1, ?_, ?_, ?_⟩
            · rw [alookup_setIndeg, if_pos rfl, hs]
              rfl
            · omega
            · rw [List.count_cons] at h2
              simp at h2
              push_cast at h2 ⊢
              omega
          · refine ⟨k, ?_, h1, ?_⟩
            · rw [alookup_setIndeg, if_neg hvs]
              exact hk
            · rw [List.count_cons] at h2
              simp [Ne.symm hvs] at h2
              exact_mod_cast h2

theorem processSuccs_extra_nodup (succs : List String) :
    ∀ indeg : List (String × Int), (processSuccs succs indeg []).2.Nodup := by
  induction succs with
  | nil => intro indeg; simp [processSuccs]
  | cons s rest ih =>
    intro indeg
    cases hs : alookup indeg s with
    | none => rw [processSuccs_cons_none s rest indeg [] hs]; exact ih indeg
    | some k0 =>
      rw [processSuccs_cons_some s rest indeg [] k0 hs]
      by_cases hz : k0 - 1 = 0
      · rw [if_pos hz, processSuccs_queue_append]
        simp only [List.nil_append, List.singleton_append]
        rw [List.nodup_cons]
        refine ⟨?_, ih _⟩
        rw [processSuccs_extra_mem]
        rintro ⟨k, hk, h1, _⟩
        rw [alookup_setIndeg, if_pos rfl, hs, hz] at hk
        simp at hk
        omega
      · rw [if_neg hz]
        exact ih _

/-! ## The Kahn loop invariant -/

theorem mem_keys_of_alookup_some {β : Type} (m : List (String × β)) (v : String)
    (b : β) (h : alookup m v = some b) : v ∈ m.map Prod.fst := by
  by_contra hmem
  rw [← alookup_none_iff] at hmem
  rw [h] at hmem
  cases hmem

theorem kahnInv_step (ids : List String) (edges : List FlowEdge)
    (indeg : List (String × Int)) (u : String) (queue result : List String)
    (inv : KahnInv ids edges indeg (u :: queue) result) :
    KahnInv ids edges (processSuccs (adj ids edges u) indeg queue).1
      (processSuccs (adj ids edges u) indeg queue).2 (result ++ [u]) := by
  obtain ⟨hu_ids, hu_nres, hu_pend⟩ := (inv.queue_iff u).mp (List.mem_cons_self u queue)
  have hqn : u ∉ queue ∧ queue.Nodup := List.nodup_cons.mp inv.queue_nodup
  have hcount : ∀ v, ((adj ids edges u).count v) = adjCount ids edges u v :=
    fun v => adj_count ids edges u v
  have hpend : ∀ v, pendCount ids edges result v =
      pendCount ids edges (result ++ [u]) v + adjCount ids edges u v :=
    fun v => pendCount_append ids edges result u v hu_nres
  have hEmem : ∀ v, v ∈ (processSuccs (adj ids edges u) indeg []).2 ↔
      ∃ k : Int, alookup indeg v = some k ∧ 1 ≤ k ∧
        k ≤ ((adj ids edges u).count v : Int) :=
    fun v => processSuccs_extra_mem (adj ids edges u) indeg v
  -- characterize membership in the freshly enqueued block for known ids
  have hEmem2 : ∀ v ∈ ids, (v ∈ (processSuccs (adj ids edges u) indeg []).2 ↔
      (1 ≤ pendCount ids edges result v ∧
        pendCount ids edges result v = adjCount ids edges u v)) := by
    intro v hv
    rw [hEmem v]
    constructor
    · rintro ⟨k, hk, h1, h2⟩
      rw [inv.vals v hv] at hk
      injection hk with hkk
      subst hkk
      rw [hcount v] at h2
      have := hpend v
      constructor
      · exact_mod_cast h1
      · omega
    · rintro ⟨h1, h2⟩
      refine ⟨(pendCount ids edges result v : Int), inv.vals v hv, by exact_mod_cast h1, ?_⟩
      rw [hcount v]
      exact_mod_cast le_of_eq h2
  have hqueue2 := processSuccs_queue_append (adj ids edges u) indeg queue
  refine ⟨inv.ids_nodup, ?_, ?_, ?_, ?_, ?_, ?_, ?_, ?_⟩
  · rw [processSuccs_keys, inv.keys_eq]
  · -- vals
    intro v hv
    rw [processSuccs_lookup, inv.vals v hv]
    simp only [Option.map_some']
    congr 1
    rw [hcount v]
    have := hpend v
    omega
  · -- res_sub
    intro v hv
    rcases List.mem_append.mp hv with h | h
    · exact inv.res_sub v h
    · rw [List.mem_singleton] at h
      exact h ▸ hu_ids
  · -- res_nodup
    rw [List.nodup_append]
    exact ⟨inv.res_nodup, List.nodup_singleton u,
      fun a ha hb => (List.mem_singleton.mp hb ▸ hu_nres) (List.mem_singleton.mp hb ▸ ha)⟩
  · -- res_done
    intro v hv
    have hle := pendCount_le_append ids edges result u v
    rcases List.mem_append.mp hv with h | h
    · have := inv.res_done v h
      omega
    · rw [List.mem_singleton] at h
      subst h
      omega
  · -- queue_iff
    intro v
    rw [hqueue2, List.mem_append]
    constructor
    · rintro (h | h)
      · obtain ⟨h_ids, h_nres, h_pend⟩ :=
          (inv.queue_iff v).mp (List.mem_cons_of_mem u h)
        have hvu : v ≠ u := fun hvu => hqn.1 (hvu ▸ h)
        refine ⟨h_ids, ?_, ?_⟩
        · rw [List.mem_append, List.mem_singleton]
          rintro (hc | hc)
          · exact h_nres hc
          · exact hvu hc
        · have hle := pendCount_le_append ids edges result u v
          omega
      · have h_ids : v ∈ ids := by
          obtain ⟨k, hk, _, _⟩ := (hEmem v).mp h
          have := mem_keys_of_alookup_some indeg v k hk
          rwa [inv.keys_eq] at this
        obtain ⟨h1, h2⟩ := (hEmem2 v h_ids).mp h
        have h_nres : v ∉ result := fun hc => by
          have := inv.res_done v hc
          omega
        have hvu : v ≠ u := fun hvu => by
          rw [hvu] at h1
          omega
        refine ⟨h_ids, ?_, ?_⟩
        · rw [List.mem_append, List.mem_singleton]
          rintro (hc | hc)
          · exact h_nres hc
          · exact hvu hc
        · have := hpend v
          omega
    · rintro ⟨h_ids, h_nres, h_pend⟩
      have hvres : v ∉ result := fun hc =>
        h_nres (List.mem_append.mpr (Or.inl hc))
      have hvu : v ≠ u := fun hc =>
        h_nres (List.mem_append.mpr (Or.inr (List.mem_singleton.mpr hc)))
      by_cases hadj : adjCount ids edges u v = 0
      · left
        have hp0 : pendCount ids edges result v = 0 := by
          have := hpend v
          omega
        have := (inv.queue_iff v).mpr ⟨h_ids, hvres, hp0⟩
        rcases List.mem_cons.mp this with hc | hc
        · exact absurd hc hvu
        · exact hc
      · right
        apply (hEmem2 v h_ids).mpr
        have := hpend v
        omega
  · -- queue_nodup
    rw [hqueue2, List.nodup_append]
    refine ⟨hqn.2, processSuccs_extra_nodup (adj ids edges u) indeg, ?_⟩
    intro a ha hb
    obtain ⟨h_ids0, _, h_pend0⟩ := (inv.queue_iff a).mp (List.mem_cons_of_mem u ha)
    obtain ⟨h1, _⟩ := (hEmem2 a h_ids0).mp hb
    omega
  · -- res_edge
    intro e he hbk j hj
    rcases lt_trichotomy j result.length with hlt | heq | hgt
    · rw [List.getElem?_append, if_pos hlt] at hj
      obtain ⟨i, hij, hi⟩ := inv.res_edge e he hbk j hj
      refine ⟨i, hij, ?_⟩
      rw [List.getElem?_append, if_pos (lt_trans hij hlt)]
      exact hi
    · subst heq
      rw [List.getElem?_concat_length] at hj
      injection hj with hj2
      have hsrc : e.source ∈ result := by
        apply pendCount_zero_source_done ids edges result u hu_pend e he hbk
        exact hj2.symm
      obtain ⟨i, hi⟩ := List.mem_iff_getElem?.mp hsrc
      have hilt : i < result.length := by
        by_contra hc
        rw [List.getElem?_eq_none (le_of_not_lt hc)] at hi
        cases hi
      refine ⟨i, hilt, ?_⟩
      rw [List.getElem?_append, if_pos hilt]
      exact hi
    · exfalso
      have : (result ++ [u])[j]? = none := by
        apply List.getElem?_eq_none
        rw [List.length_append]
        simp
        omega
      rw [this] at hj
      cases hj

theorem kahnLoop_nil (ids : List String) (edges : List FlowEdge)
    (indeg : List (String × Int)) (result : List String) :
    kahnLoop ids edges indeg [] result = result := by
  rw [kahnLoop]

theorem kahnLoop_cons (ids : List String) (edges : List FlowEdge)
    (indeg : List (String × Int)) (u : String) (queue result : List String) :
    kahnLoop ids edges indeg (u :: queue) result =
      kahnLoop ids edges (processSuccs (adj ids edges u) indeg queue).1
        (processSuccs (adj ids edges u) indeg queue).2 (result ++ [u]) := by
  rw [kahnLoop]

theorem kahnInv_init (ids : List String) (edges : List FlowEdge)
    (hn : ids.Nodup) :
    KahnInv ids edges (buildIndeg ids edges) (seedsList ids edges) [] := by
  have hkeys := keys_buildIndeg ids edges
  have hkn : ((buildIndeg ids edges).map Prod.fst).Nodup := by rw [hkeys]; exact hn
  refine ⟨hn, hkeys, ?_, by simp, List.nodup_nil, by simp, ?_, ?_, by simp⟩
  · intro v hv
    rw [alookup_buildIndeg, if_pos hv]
  · intro v
    simp only [List.not_mem_nil, not_false_iff, true_and, seedsList]
    constructor
    · intro h
      obtain ⟨p, hp, rfl⟩ := List.mem_map.mp h
      obtain ⟨hpm, hp0⟩ := List.mem_filter.mp hp
      have hvids : p.1 ∈ ids := by
        rw [← hkeys]
        exact List.mem_map.mpr ⟨p, hpm, rfl⟩
      have := mem_alookup_of_nodup _ p.1 p.2 hkn hpm
      rw [alookup_buildIndeg, if_pos hvids] at this
      injection this with h2
      have hp0i : p.2 = 0 := by simpa using hp0
      refine ⟨hvids, ?_⟩
      rw [hp0i] at h2
      have : (pendCount ids edges [] p.1 : Int) = 0 := h2
      omega
    · rintro ⟨hvids, hpend⟩
      have hl : alookup (buildIndeg ids edges) v = some 0 := by
        rw [alookup_buildIndeg, if_pos hvids, hpend]
        rfl
      have := alookup_mem _ v (0 : Int) hl
      exact List.mem_map.mpr ⟨(v, 0), List.mem_filter.mpr ⟨this, by simp⟩, rfl⟩
  · rw [seedsList]
    apply List.Nodup.sublist _ hkn
    exact List.Sublist.map Prod.fst (List.filter_sublist _)

theorem kahnLoop_spec (ids : List String) (edges : List FlowEdge) :
    ∀ (indeg : List (String × Int)) (queue result : List String),
      KahnInv ids edges indeg queue result →
      ∃ indeg2, KahnInv ids edges indeg2 []
          (kahnLoop ids edges indeg queue result) ∧
        ∃ tail, kahnLoop ids edges indeg queue result = result ++ tail := by
  intro indeg queue result
  induction indeg, queue, result using kahnLoop.induct ids edges with
  | case1 indeg result =>
    intro inv
    rw [kahnLoop_nil]
    exact ⟨indeg, inv, [], by simp⟩
  | case2 indeg u queue result p ih =>
    intro inv
    rw [kahnLoop_cons]
    have step := kahnInv_step ids edges indeg u queue result inv
    obtain ⟨indeg2, hinv2, tail, htail⟩ := ih step
    refine ⟨indeg2, hinv2, u :: tail, ?_⟩
    rw [htail]
    simp

theorem kahnLoop_queue_first (ids : List String) (edges : List FlowEdge) :
    ∀ (indeg : List (String × Int)) (queue result : List String),
      ∃ tail, kahnLoop ids edges indeg queue result = (result ++ queue) ++ tail := by
  intro indeg queue result
  induction indeg, queue, result using kahnLoop.induct ids edges with
  | case1 indeg result =>
    rw [kahnLoop_nil]
    exact ⟨[], by simp⟩
  | case2 indeg u queue result p ih =>
    rw [kahnLoop_cons]
    obtain ⟨tail, htail⟩ := ih
    have hq := processSuccs_queue_append (adj ids edges u) indeg queue
    refine ⟨(processSuccs (adj ids edges u) indeg []).2 ++ tail, ?_⟩
    rw [htail, hq]
    simp

theorem topological_sort_ok_spec (ids : List String) (edges : List FlowEdge)
    (result : List String) (hn : ids.Nodup)
    (h : topological_sort ids edges = Except.ok result) :
    ∃ indeg2, KahnInv ids edges indeg2 [] result ∧
      result.length = ids.length := by
  rw [topological_sort] at h
  split at h
  case isTrue hlen =>
    injection h with h2
    subst h2
    obtain ⟨indeg2, hinv, _⟩ :=
      kahnLoop_spec ids edges (buildIndeg ids edges) (seedsList ids edges) []
        (kahnInv_init ids edges hn)
    exact ⟨indeg2, hinv, hlen⟩
  case isFalse => cases h

theorem topological_sort_ok_perm (ids : List String) (edges : List FlowEdge)
    (result : List String) (hn : ids.Nodup)
    (h : topological_sort ids edges = Except.ok result) :
    result.Perm ids := by
  obtain ⟨indeg2, hinv, hlen⟩ := topological_sort_ok_spec ids edges result hn h
  have hsub : result ⊆ ids := fun v hv => hinv.res_sub v hv
  have := List.subperm_of_subset hinv.res_nodup hsub
  exact this.perm_of_length_le (by omega)

theorem topological_sort_ok_edges (ids : List String) (edges : List FlowEdge)
    (result : List String) (hn : ids.Nodup)
    (h : topological_sort ids edges = Except.ok result) :
    ∀ e ∈ edges, bothKnown ids e = true →
      beforeIn result e.source e.target := by
  obtain ⟨indeg2, hinv, hlen⟩ := topological_sort_ok_spec ids edges result hn h
  intro e he hbk
  have hperm := topological_sort_ok_perm ids edges result hn h
  have htmem : e.target ∈ result := by
    rw [hperm.mem_iff]
    have : ids.contains e.target = true := by
      have := hbk
      rw [bothKnown] at this
      exact (Bool.and_eq_true _ _ ▸ this).2
    simpa [List.contains, List.elem_eq_mem] using this
  obtain ⟨j, hj⟩ := List.mem_iff_getElem?.mp htmem
  obtain ⟨i, hij, hi⟩ := hinv.res_edge e he hbk j hj
  exact ⟨i, j, hij, hi, hj⟩

/-! ## Acyclicity and success of Kahn's algorithm -/

theorem indexOf_eq_of_getElem (l : List String) (hn : l.Nodup) (i : Nat)
    (a : String) (h : l[i]? = some a) : l.indexOf a = i := by
  have hi : i < l.length := by
    by_contra hc
    rw [List.getElem?_eq_none (le_of_not_lt hc)] at h
    cases h
  have hg : l.get ⟨i, hi⟩ = a := by
    have := List.getElem?_eq_getElem hi
    rw [this] at h
    injection h
  have := List.get_indexOf hn ⟨i, hi⟩
  rw [hg] at this
  exact this

theorem cycle_of_pred (R : List String) (Rel : String → String → Prop)
    (hne : R ≠ []) (H : ∀ v ∈ R, ∃ s, s ∈ R ∧ Rel s v) :
    ∃ v, Relation.TransGen Rel v v := by
  obtain ⟨v0, hv0⟩ := List.exists_mem_of_ne_nil R hne
  let step : {x // x ∈ R} → {x // x ∈ R} := fun p =>
    ⟨Classical.choose (H p.1 p.2), (Classical.choose_spec (H p.1 p.2)).1⟩
  let F : Nat → {x // x ∈ R} := fun n => step^[n] ⟨v0, hv0⟩
  have hstep : ∀ n, Rel (F (n + 1)).1 (F n).1 := by
    intro n
    have he : F (n + 1) = step (F n) := Function.iterate_succ_apply' step n _
    rw [he]
    exact (Classical.choose_spec (H (F n).1 (F n).2)).2
  have hchain : ∀ j i : Nat, i < j → Relation.TransGen Rel (F j).1 (F i).1 := by
    intro j
    induction j with
    | zero => intro i h; exact absurd h (Nat.not_lt_zero i)
    | succ j ihj =>
      intro i hij
      rcases Nat.lt_succ_iff_lt_or_eq.mp hij with h | h
      · exact Relation.TransGen.head (hstep j) (ihj i h)
      · subst h
        exact Relation.TransGen.single (hstep i)
  have hcard : R.toFinset.card <
      (Finset.univ : Finset (Fin (R.length + 1))).card := by
    have h1 := List.toFinset_card_le R
    simp only [Finset.card_univ, Fintype.card_fin]
    omega
  obtain ⟨i, _, j, _, hij, hfij⟩ :=
    Finset.exists_ne_map_eq_of_card_lt_of_maps_to hcard
      (fun (a : Fin (R.length + 1)) _ => List.mem_toFinset.mpr (F a.1).2)
  rcases lt_or_gt_of_ne hij with h | h
  · refine ⟨(F j.1).1, ?_⟩
    have := hchain j.1 i.1 h
    rw [hfij] at this
    exact this
  · refine ⟨(F i.1).1, ?_⟩
    have := hchain i.1 j.1 h
    rw [← hfij] at this
    exact this

theorem topological_sort_ok_acyclic (ids : List String) (edges : List FlowEdge)
    (result : List String) (hn : ids.Nodup)
    (h : topological_sort ids edges = Except.ok result) :
    AcyclicKnown ids edges := by
  intro v hcyc
  have hperm := topological_sort_ok_perm ids edges result hn h
  have hedges := topological_sort_ok_edges ids edges result hn h
  have hnd : result.Nodup := hperm.nodup_iff.mpr hn
  have hmono : ∀ a b, knownEdgeRel ids edges a b →
      result.indexOf a < result.indexOf b := by
    rintro a b ⟨e, he, hsa, hsb, hbk⟩
    obtain ⟨i, j, hij, hi, hj⟩ := hedges e he hbk
    rw [hsa] at hi
    rw [hsb] at hj
    rw [indexOf_eq_of_getElem result hnd i a hi,
      indexOf_eq_of_getElem result hnd j b hj]
    exact hij
  have htrans : ∀ a b, Relation.TransGen (knownEdgeRel ids edges) a b →
      result.indexOf a < result.indexOf b := by
    intro a b hab
    induction hab with
    | single h1 => exact hmono _ _ h1
    | tail h1 h2 ih => exact lt_trans ih (hmono _ _ h2)
  have := htrans v v hcyc
  omega

theorem topological_sort_acyclic_ok (ids : List String) (edges : List FlowEdge)
    (hn : ids.Nodup) (hacyc : AcyclicKnown ids edges) :
    ∃ result, topological_sort ids edges = Except.ok result := by
  obtain ⟨indeg2, hinv, htail⟩ :=
    kahnLoop_spec ids edges (buildIndeg ids edges) (seedsList ids edges) []
      (kahnInv_init ids edges hn)
  by_cases hlen : (kahnLoop ids edges (buildIndeg ids edges)
      (seedsList ids edges) []).length = ids.length
  · refine ⟨kahnLoop ids edges (buildIndeg ids edges) (seedsList ids edges) [], ?_⟩
    have hseq : List.map Prod.fst
        (List.filter (fun p => (p.2 == 0)) (buildIndeg ids edges)) =
        seedsList ids edges := rfl
    rw [topological_sort, hseq, if_pos hlen]
  · exfalso
    set out := kahnLoop ids edges (buildIndeg ids edges) (seedsList ids edges) []
      with hout
    have hsub : out ⊆ ids := fun v hv => hinv.res_sub v hv
    have hlt : out.length < ids.length :=
      lt_of_le_of_ne (List.subperm_of_subset hinv.res_nodup hsub).length_le hlen
    have hex : ∃ v, v ∈ ids ∧ v ∉ out := by
      by_contra hc
      push_neg at hc
      have hs2 : ids ⊆ out := fun v hv => hc v hv
      have := (List.subperm_of_subset hn hs2).length_le
      omega
    set R := ids.filter (fun v => !(out.contains v)) with hR
    have hmemR : ∀ v, v ∈ R ↔ (v ∈ ids ∧ v ∉ out) := by
      intro v
      rw [hR, List.mem_filter]
      simp [List.contains, List.elem_eq_mem]
    have hne : R ≠ [] := by
      obtain ⟨v, hv⟩ := hex
      intro hnil
      have := (hmemR v).mpr hv
      rw [hnil] at this
      cases this
    have Hpred : ∀ v ∈ R, ∃ s, s ∈ R ∧ knownEdgeRel ids edges s v := by
      intro v hv
      obtain ⟨hvids, hvout⟩ := (hmemR v).mp hv
      have hpend : pendCount ids edges out v ≠ 0 := by
        intro h0
        have := (hinv.queue_iff v).mpr ⟨hvids, hvout, h0⟩
        cases this
      obtain ⟨e, he, hbk, ht, hsrc⟩ := pendCount_pos_exists ids edges out v hpend
      refine ⟨e.source, ?_, ⟨e, he, rfl, ht, hbk⟩⟩
      apply (hmemR e.source).mpr
      have hbk2 := hbk
      rw [bothKnown] at hbk2
      simp only [Bool.and_eq_true, List.contains, List.elem_eq_mem,
        decide_eq_true_eq] at hbk2
      exact ⟨hbk2.1, hsrc⟩
    obtain ⟨v, hcyc⟩ := cycle_of_pred R (knownEdgeRel ids edges) hne Hpred
    exact hacyc v hcyc

theorem topological_sort_cycle_error (ids : List String) (edges : List FlowEdge)
    (hn : ids.Nodup)
    (hcyc : ∃ v, Relation.TransGen (knownEdgeRel ids edges) v v) :
    topological_sort ids edges = Except.error "流程中存在循环依赖" := by
  cases hres : topological_sort ids edges with
  | ok result =>
    exfalso
    obtain ⟨v, hv⟩ := hcyc
    exact topological_sort_ok_acyclic ids edges result hn hres v hv
  | error msg =>
    rw [topological_sort] at hres
    split at hres
    · cases hres
    · injection hres with h2
      rw [h2]

/-! ## Unknown edges are ignored; edgeless graphs -/

theorem buildIndeg_filter (ids : List String) (edges : List FlowEdge) :
    buildIndeg ids (edges.filter (bothKnown ids)) = buildIndeg ids edges := by
  rw [buildIndeg, buildIndeg]
  generalize ids.map (fun v => (v, (0 : Int))) = m
  induction edges generalizing m with
  | nil => rfl
  | cons e rest ih =>
    rw [List.filter_cons]
    by_cases hb : bothKnown ids e = true
    · rw [if_pos hb]
      simp only [List.foldl_cons, if_pos hb]
      exact ih _
    · rw [if_neg hb]
      simp only [List.foldl_cons, if_neg hb]
      exact ih _

theorem adj_filter (ids : List String) (edges : List FlowEdge) (u : String) :
    adj ids (edges.filter (bothKnown ids)) u = adj ids edges u := by
  rw [adj, adj]
  congr 1
  induction edges with
  | nil => rfl
  | cons e rest ih =>
    rw [List.filter_cons]
    by_cases hb : bothKnown ids e = true
    · rw [if_pos hb, List.filter_cons, List.filter_cons]
      by_cases hs : (bothKnown ids e && e.source == u) = true
      · rw [if_pos hs, if_pos hs, ih]
      · rw [if_neg hs, if_neg hs, ih]
    · rw [if_neg hb, List.filter_cons]
      have hns : ¬ (bothKnown ids e && e.source == u) = true := by
        simp only [Bool.not_eq_true] at hb ⊢
        simp [hb]
      rw [if_neg hns, ih]

theorem kahnLoop_congr (ids : List String) (edges1 edges2 : List FlowEdge)
    (hadj : ∀ u, adj ids edges1 u = adj ids edges2 u) :
    ∀ (indeg : List (String × Int)) (queue result : List String),
      kahnLoop ids edges1 indeg queue result =
        kahnLoop ids edges2 indeg queue result := by
  intro indeg queue result
  induction indeg, queue, result using kahnLoop.induct ids edges1 with
  | case1 indeg result => rw [kahnLoop_nil, kahnLoop_nil]
  | case2 indeg u queue result p ih =>
    rw [kahnLoop_cons, kahnLoop_cons, ← hadj u]
    exact ih

theorem topological_sort_filter (ids : List String) (edges : List FlowEdge) :
    topological_sort ids (edges.filter (bothKnown ids)) =
      topological_sort ids edges := by
  rw [topological_sort, topological_sort, buildIndeg_filter,
    kahnLoop_congr ids (edges.filter (bothKnown ids)) edges
      (fun u => adj_filter ids edges u)]

theorem topological_sort_known_congr (ids : List String)
    (edges1 edges2 : List FlowEdge)
    (h : edges1.filter (bothKnown ids) = edges2.filter (bothKnown ids)) :
    topological_sort ids edges1 = topological_sort ids edges2 := by
  rw [← topological_sort_filter ids edges1, h, topological_sort_filter]

theorem kahnLoop_no_adj (ids : List String) (edges : List FlowEdge)
    (hadj : ∀ u, adj ids edges u = []) :
    ∀ (indeg : List (String × Int)) (queue result : List String),
      kahnLoop ids edges indeg queue result = result ++ queue := by
  intro indeg queue result
  induction indeg, queue, result using kahnLoop.induct ids edges with
  | case1 indeg result => rw [kahnLoop_nil]; simp
  | case2 indeg u queue result p ih =>
    have hp : p = (indeg, queue) := by
      show processSuccs (adj ids edges u) indeg queue = (indeg, queue)
      rw [hadj u]
      rfl
    rw [kahnLoop_cons,
      (show processSuccs (adj ids edges u) indeg queue = (indeg, queue) from hp)]
    rw [hp] at ih
    rw [ih]
    simp

theorem topological_sort_nil_edges (ids : List String) (hn : ids.Nodup) :
    topological_sort ids [] = Except.ok ids := by
  have hmapfil : ∀ l : List String,
      ((l.map (fun v => (v, (0 : Int)))).filter (fun p => (p.2 == 0))).map
        Prod.fst = l := by
    intro l
    induction l with
    | nil => rfl
    | cons a tl ih => simp [ih]
  have hbuild : buildIndeg ids [] = ids.map (fun v => (v, (0 : Int))) := rfl
  have hloop := kahnLoop_no_adj ids [] (fun u => rfl)
  have hall : kahnLoop ids [] (buildIndeg ids [])
      (((buildIndeg ids []).filter (fun p => (p.2 == 0))).map Prod.fst) [] =
      ids := by
    rw [hloop, hbuild, hmapfil]
    rfl
  rw [topological_sort, hall, if_pos rfl]

/-! ## Claim C1-C3 helpers -/

theorem acyclic_of_rank (ids : List String) (edges : List FlowEdge)
    (rank : String → Nat)
    (h : ∀ e ∈ edges, bothKnown ids e = true → rank e.source < rank e.target) :
    AcyclicKnown ids edges := by
  intro v hcyc
  have hmono : ∀ a b, knownEdgeRel ids edges a b → rank a < rank b := by
    rintro a b ⟨e, he, hsa, hsb, hbk⟩
    rw [← hsa, ← hsb]
    exact h e he hbk
  have htrans : ∀ a b, Relation.TransGen (knownEdgeRel ids edges) a b →
      rank a < rank b := by
    intro a b hab
    induction hab with
    | single h1 => exact hmono _ _ h1
    | tail _ h2 ih => exact lt_trans ih (hmono _ _ h2)
  have := htrans v v hcyc
  omega

theorem setOrderOf_perm_of_nodup (ids : List String) (nodes : List FlowNode)
    (h : SetOrderOf ids nodes) (hn : (nodes.map FlowNode.id).Nodup) :
    ids.Perm (nodes.map FlowNode.id) := by
  have h2 := h.2
  rwa [List.dedup_eq_self.mpr hn] at h2

/-- Claim C1: for every acyclic graph (unique node ids, any edge list), and any
iteration order of the node-id set, `topological_sort` returns a
permutation of all node ids in which every edge between two known ids
goes from an earlier to a later position; edges referencing an unknown id
never cause an error and do not influence the result (the result only
depends on the edges between known ids). -/
theorem C1_schedule_acyclic_correct (nodes : List FlowNode)
    (edges : List FlowEdge) (ids : List String)
    (hso : SetOrderOf ids nodes) (huniq : (nodes.map FlowNode.id).Nodup)
    (hacyc : AcyclicKnown ids edges) :
    ∃ result, topological_sort ids edges = Except.ok result ∧
      result.Perm (nodes.map FlowNode.id) ∧
      (∀ e ∈ edges, bothKnown ids e = true →
        beforeIn result e.source e.target) ∧
      (∀ edges2 : List FlowEdge,
        edges2.filter (bothKnown ids) = edges.filter (bothKnown ids) →
        topological_sort ids edges2 = topological_sort ids edges) := by
  obtain ⟨result, hres⟩ := topological_sort_acyclic_ok ids edges hso.1 hacyc
  refine ⟨result, hres, ?_, ?_, ?_⟩
  · exact (topological_sort_ok_perm ids edges result hso.1 hres).trans
      (setOrderOf_perm_of_nodup ids nodes hso huniq)
  · exact topological_sort_ok_edges ids edges result hso.1 hres
  · intro edges2 h2
    exact topological_sort_known_congr ids edges2 edges h2

/-- Witness for C1: the diamond graph A→B, A→C, B→D, C→D plus a junk
edge Z→A whose source is not a node, scheduled under a scrambled set
iteration order. -/
theorem C1_schedule_acyclic_correct_witness :
    ∃ result,
      topological_sort ["B", "C", "D", "A"]
          [⟨"A", "B"⟩, ⟨"A", "C"⟩, ⟨"B", "D"⟩, ⟨"C", "D"⟩, ⟨"Z", "A"⟩] =
        Except.ok result ∧
      result.Perm ([FlowNode.mk "A" "t" [], FlowNode.mk "B" "t" [],
        FlowNode.mk "C" "t" [], FlowNode.mk "D" "t" []].map FlowNode.id) ∧
      (∀ e ∈ [FlowEdge.mk "A" "B", FlowEdge.mk "A" "C", FlowEdge.mk "B" "D",
          FlowEdge.mk "C" "D", FlowEdge.mk "Z" "A"],
        bothKnown ["B", "C", "D", "A"] e = true →
        beforeIn result e.source e.target) ∧
      (∀ edges2 : List FlowEdge,
        edges2.filter (bothKnown ["B", "C", "D", "A"]) =
          [FlowEdge.mk "A" "B", FlowEdge.mk "A" "C", FlowEdge.mk "B" "D",
            FlowEdge.mk "C" "D", FlowEdge.mk "Z" "A"].filter
            (bothKnown ["B", "C", "D", "A"]) →
        topological_sort ["B", "C", "D", "A"] edges2 =
          topological_sort ["B", "C", "D", "A"]
            [⟨"A", "B"⟩, ⟨"A", "C"⟩, ⟨"B", "D"⟩, ⟨"C", "D"⟩, ⟨"Z", "A"⟩]) :=
  C1_schedule_acyclic_correct
    [FlowNode.mk "A" "t" [], FlowNode.mk "B" "t" [],
      FlowNode.mk "C" "t" [], FlowNode.mk "D" "t" []]
    [⟨"A", "B"⟩, ⟨"A", "C"⟩, ⟨"B", "D"⟩, ⟨"C", "D"⟩, ⟨"Z", "A"⟩]
    ["B", "C", "D", "A"]
    ⟨by decide, by decide⟩ (by decide)
    (acyclic_of_rank _ _
      (fun s => if s = "A" then 0 else if s = "D" then 2 else 1)
      (by decide))

/-- Claim C2, amended: for every graph containing a cycle among known node
ids, `topological_sort` raises a `ValueError` carrying the fixed message
`流程中存在循环依赖` — which does not name the unresolved node ids — and it
never returns any (partial or total) order. -/
theorem C2_cycle_fixed_error (nodes : List FlowNode) (edges : List FlowEdge)
    (ids : List String) (hso : SetOrderOf ids nodes)
    (hcyc : ∃ v, Relation.TransGen (knownEdgeRel ids edges) v v) :
    topological_sort ids edges = Except.error "流程中存在循环依赖" ∧
      ∀ result : List String, topological_sort ids edges ≠ Except.ok result := by
  have h := topological_sort_cycle_error ids edges hso.1 hcyc
  refine ⟨h, fun result hr => ?_⟩
  rw [h] at hr
  cases hr

/-- Witness for C2 (amended): the two-node cycle X→Y→X. -/
theorem C2_cycle_fixed_error_witness :
    topological_sort ["Y", "X"] [⟨"X", "Y"⟩, ⟨"Y", "X"⟩] =
        Except.error "流程中存在循环依赖" ∧
      ∀ result : List String,
        topological_sort ["Y", "X"] [⟨"X", "Y"⟩, ⟨"Y", "X"⟩] ≠
          Except.ok result :=
  C2_cycle_fixed_error [FlowNode.mk "X" "t" [], FlowNode.mk "Y" "t" []]
    [⟨"X", "Y"⟩, ⟨"Y", "X"⟩] ["Y", "X"] ⟨by decide, by decide⟩
    ⟨"X", Relation.TransGen.head
      ⟨⟨"X", "Y"⟩, by simp, rfl, rfl, by decide⟩
      (Relation.TransGen.single ⟨⟨"Y", "X"⟩, by simp, rfl, rfl, by decide⟩)⟩

/-- Counterexample for C2 as stated: two cyclic graphs with disjoint node
id sets produce the very same error value, so the error cannot name the
remaining (unresolved) node ids, contrary to the claim. -/
theorem C2_counterexample :
    topological_sort ["X", "Y"] [⟨"X", "Y"⟩, ⟨"Y", "X"⟩] =
        Except.error "流程中存在循环依赖" ∧
      topological_sort ["P", "Q"] [⟨"P", "Q"⟩, ⟨"Q", "P"⟩] =
        Except.error "流程中存在循环依赖" := by
  constructor
  · exact topological_sort_cycle_error _ _ (by decide)
      ⟨"X", Relation.TransGen.head
        ⟨⟨"X", "Y"⟩, by simp, rfl, rfl, by decide⟩
        (Relation.TransGen.single ⟨⟨"Y", "X"⟩, by simp, rfl, rfl, by decide⟩)⟩
  · exact topological_sort_cycle_error _ _ (by decide)
      ⟨"P", Relation.TransGen.head
        ⟨⟨"P", "Q"⟩, by simp, rfl, rfl, by decide⟩
        (Relation.TransGen.single ⟨⟨"Q", "P"⟩, by simp, rfl, rfl, by decide⟩)⟩

/-- Claim C3, amended: `topological_sort` is a deterministic function of the
nodes, the edges, and the iteration order of the node-id set (Python
leaves that order unspecified); ties among equal-in-degree candidates
follow the set iteration order, not the insertion order of the nodes
list: the zero-in-degree seeds are scheduled first, exactly in set
iteration order, and with no edges the whole schedule equals the set
iteration order. -/
theorem C3_tie_break_set_order (ids : List String) (nodes : List FlowNode)
    (edges : List FlowEdge) (result : List String)
    (hso : SetOrderOf ids nodes) :
    topological_sort ids [] = Except.ok ids ∧
      (topological_sort ids edges = Except.ok result →
        result.take (seedsList ids edges).length = seedsList ids edges) := by
  constructor
  · exact topological_sort_nil_edges ids hso.1
  · intro h
    rw [topological_sort] at h
    split at h
    case isTrue hlen =>
      injection h with h2
      subst h2
      obtain ⟨tail, htail⟩ := kahnLoop_queue_first ids edges
        (buildIndeg ids edges)
        (((buildIndeg ids edges).filter (fun p => (p.2 == 0))).map Prod.fst) []
      rw [htail]
      have hseq : seedsList ids edges =
          ((buildIndeg ids edges).filter (fun p => (p.2 == 0))).map Prod.fst :=
        rfl
      rw [hseq]
      simp [List.take_left]
    case isFalse => cases h

/-- Witness for C3 (amended): two nodes under a reversed set iteration
order. -/
theorem C3_tie_break_set_order_witness :
    topological_sort ["B", "A"] [] = Except.ok ["B", "A"] ∧
      (topological_sort ["B", "A"] [⟨"A", "B"⟩] = Except.ok ["A", "B"] →
        (["A", "B"].take
            (seedsList ["B", "A"] [⟨"A", "B"⟩]).length) =
          seedsList ["B", "A"] [⟨"A", "B"⟩]) :=
  C3_tie_break_set_order ["B", "A"]
    [FlowNode.mk "A" "t" [], FlowNode.mk "B" "t" []]
    [⟨"A", "B"⟩] ["A", "B"] ⟨by decide, by decide⟩

/-- Counterexample for C3 as stated: for the two-node edgeless graph with
nodes inserted in the order a, b, the set iteration order b, a is
admissible (`SetOrderOf` holds), yet the schedule is b, a — the node
appearing later in the nodes list is scheduled first, refuting the claim
that ties are broken by insertion order of the nodes list. -/
theorem C3_counterexample :
    SetOrderOf ["b", "a"] [FlowNode.mk "a" "t" [], FlowNode.mk "b" "t" []] ∧
      topological_sort ["b", "a"] [] = Except.ok ["b", "a"] ∧
      (["b", "a"] : List String) ≠ ["a", "b"] :=
  ⟨⟨by decide, by decide⟩, topological_sort_nil_edges _ (by decide), by decide⟩

/-! ## Claim C5: upstream wiring -/

theorem get_upstream_eq_spec (node_id : String) (edges : List FlowEdge)
    (results : List (String × NodeExecuteResponse)) :
    get_upstream_output node_id edges results =
      firstUpstreamLocatorSpec node_id edges results := by
  induction edges with
  | nil => rfl
  | cons e rest ih =>
    by_cases ht : (e.target == node_id) = true
    · cases hr : alookup results e.source with
      | some r =>
        by_cases hs : (r.success && optTruthy r.output_path) = true
        · simp [get_upstream_output, firstUpstreamLocatorSpec,
            List.filter_cons, ht, hr, hs]
        · simp only [Bool.not_eq_true] at hs
          simp [get_upstream_output, firstUpstreamLocatorSpec,
            List.filter_cons, ht, hr, hs, ih]
      | none =>
        simp [get_upstream_output, firstUpstreamLocatorSpec,
          List.filter_cons, ht, hr, ih]
    · simp only [Bool.not_eq_true] at ht
      simp [get_upstream_output, firstUpstreamLocatorSpec,
        List.filter_cons, ht, ih]

theorem get_upstream_nonempty (node_id : String) (edges : List FlowEdge)
    (results : List (String × NodeExecuteResponse)) (p : String)
    (h : get_upstream_output node_id edges results = some p) : p ≠ "" := by
  induction edges with
  | nil => cases h
  | cons e rest ih =>
    by_cases ht : (e.target == node_id) = true
    · cases hr : alookup results e.source with
      | some r =>
        by_cases hs : (r.success && optTruthy r.output_path) = true
        · simp only [get_upstream_output, ht, if_true, hr, hs] at h
          have h2 := (Bool.and_eq_true _ _ ▸ hs).2
          rw [h] at h2
          rw [optTruthy] at h2
          simpa using h2
        · simp only [Bool.not_eq_true] at hs
          simp only [get_upstream_output, ht, if_true, hr, hs,
            Bool.false_eq_true, if_false] at h
          exact ih h
      | none =>
        simp only [get_upstream_output, ht, if_true, hr] at h
        exact ih h
    · simp only [Bool.not_eq_true] at ht
      simp only [get_upstream_output, ht, Bool.false_eq_true, if_false] at h
      exact ih h

/-- Claim C5: the effective configuration of a node equals its submitted
configuration, except that when the `path` key is absent it is filled
with the artifact locator of the first edge, in submission order, whose
target is this node and whose source already has a result with
`success=true` and a non-empty `output_path`; a present key is never
overwritten, and when no edge qualifies no key is added. -/
theorem C5_effective_config_fill_if_absent (node_id : String)
    (config : List (String × JVal)) (edges : List FlowEdge)
    (results : List (String × NodeExecuteResponse)) :
    effectiveConfig node_id config edges results =
      match (if containsKey config "path" then none
             else firstUpstreamLocatorSpec node_id edges results) with
      | some p => config ++ [("path", JVal.vstr p)]
      | none => config := by
  rw [effectiveConfig]
  by_cases hc : containsKey config "path"
  · simp [hc]
  · simp only [Bool.not_eq_true] at hc
    rw [← get_upstream_eq_spec]
    cases hu : get_upstream_output node_id edges results with
    | none => simp [hc, hu, optTruthy]
    | some p =>
      have hp : p ≠ "" := get_upstream_nonempty node_id edges results p hu
      have htr : optTruthy (some p) = true := by
        rw [optTruthy]
        simpa using hp
      simp [hc, htr, aset_eq_append config "path" (JVal.vstr p) hc]

/-! ## Claims C4 and C10: the flow loop -/

theorem foldl_find_isSome (nodes : List FlowNode) (i : String) :
    ∀ acc : Option FlowNode,
      ((∃ n ∈ nodes, n.id = i) ∨ acc.isSome = true) →
      (nodes.foldl
        (fun acc n => if n.id == i then some n else acc) acc).isSome = true := by
  induction nodes with
  | nil =>
    intro acc h
    rcases h with ⟨n, hn, _⟩ | h
    · cases hn
    · exact h
  | cons m rest ih =>
    intro acc h
    simp only [List.foldl_cons]
    apply ih
    by_cases hm : (m.id == i) = true
    · right
      simp [hm]
    · rcases h with ⟨n, hn, hni⟩ | hacc
      · rcases List.mem_cons.mp hn with rfl | hn2
        · exfalso
          apply hm
          simp [hni]
        · exact Or.inl ⟨n, hn2, hni⟩
      · right
        simpa [hm] using hacc

theorem runFlowNodes_spec (resolveAdapter : String → Except String Unit)
    (execOracle : String → List (String × JVal) → Except String AdapterOutput)
    (nodes : List FlowNode) (edges : List FlowEdge) (task_id : String)
    (total : Nat) :
    ∀ (order : List String) (idx : Nat) (st : FlowLoopState),
      (∀ i ∈ order, ∃ n ∈ nodes, n.id = i) →
      order.Nodup →
      (∀ i ∈ order, containsKey st.node_results i = false) →
      st.all_success = st.node_results.all (fun p => p.2.success) →
      ∃ st2, runFlowNodes resolveAdapter execOracle nodes edges task_id total
          order idx st = some st2 ∧
        st2.node_results.map Prod.fst = st.node_results.map Prod.fst ++ order ∧
        st2.all_success = st2.node_results.all (fun p => p.2.success) := by
  intro order
  induction order with
  | nil =>
    intro idx st _ _ _ hinv
    exact ⟨st, rfl, by simp, hinv⟩
  | cons node_id rest ih =>
    intro idx st hcov hnd hfresh hinv
    have hnd2 := List.nodup_cons.mp hnd
    have hfr0 : containsKey st.node_results node_id = false :=
      hfresh node_id (List.mem_cons_self _ _)
    have hfound : (nodes.foldl
        (fun acc n => if n.id == node_id then some n else acc) none).isSome
          = true :=
      foldl_find_isSome nodes node_id none
        (Or.inl (hcov node_id (List.mem_cons_self _ _)))
    obtain ⟨node, hnode⟩ := Option.isSome_iff_exists.mp hfound
    have hnext : ∀ (nr : NodeExecuteResponse),
        (∀ i ∈ rest,
          containsKey (aset st.node_results node_id nr) i = false) := by
      intro nr i hi
      have hne : i ≠ node_id := by
        intro hc
        exact hnd2.1 (hc ▸ hi)
      rw [containsKey, alookup_aset_ne st.node_results node_id i nr hne]
      exact hfresh i (List.mem_cons_of_mem _ hi)
    have hkeys2 : ∀ nr : NodeExecuteResponse,
        (aset st.node_results node_id nr).map Prod.fst =
          st.node_results.map Prod.fst ++ [node_id] := by
      intro nr
      rw [aset_eq_append st.node_results node_id nr hfr0]
      simp
    have hall2 : ∀ nr : NodeExecuteResponse,
        (aset st.node_results node_id nr).all (fun p => p.2.success) =
          (st.node_results.all (fun p => p.2.success) && nr.success) := by
      intro nr
      rw [aset_eq_append st.node_results node_id nr hfr0]
      simp
    have hcov2 : ∀ i ∈ rest, ∃ n ∈ nodes, n.id = i :=
      fun i hi => hcov i (List.mem_cons_of_mem _ hi)
    cases hra : resolveAdapter node.type with
    | error m =>
      obtain ⟨st2, hrun, hkeys, hsucc⟩ := ih (idx + 1)
        ⟨aset st.node_results node_id (failResponse ("执行失败: " ++ m)), false,
          (st.events ++ [Event.status task_id (some node_id) "running"
            ("执行节点 " ++ toString (idx + 1) ++ "/" ++ toString total)]) ++
          [Event.status task_id (some node_id) "error" ("执行失败: " ++ m)]⟩
        hcov2 hnd2.2 (hnext _) (by rw [hall2]; simp [failResponse, hinv])
      refine ⟨st2, ?_, ?_, hsucc⟩
      · show runFlowNodes resolveAdapter execOracle nodes edges task_id total
          (node_id :: rest) idx st = some st2
        simp only [runFlowNodes, hnode, hra]
        exact hrun
      · rw [hkeys]
        simp only [hkeys2]
        simp
    | ok unit =>
      cases hexec : execOracle node.type
          (effectiveConfig node_id node.config edges st.node_results) with
      | error m =>
        obtain ⟨st2, hrun, hkeys, hsucc⟩ := ih (idx + 1)
          ⟨aset st.node_results node_id (failResponse ("执行失败: " ++ m)), false,
            (if (optTruthy (get_upstream_output node_id edges st.node_results) &&
                !(containsKey node.config "path")) = true then
              (st.events ++ [Event.status task_id (some node_id) "running"
                ("执行节点 " ++ toString (idx + 1) ++ "/" ++ toString total)]) ++
                [Event.log task_id (some node_id)
                  ("使用上游输出路径: " ++
                    (get_upstream_output node_id edges st.node_results).getD "")]
            else
              st.events ++ [Event.status task_id (some node_id) "running"
                ("执行节点 " ++ toString (idx + 1) ++ "/" ++ toString total)]) ++
            [Event.status task_id (some node_id) "error" ("执行失败: " ++ m)]⟩
          hcov2 hnd2.2 (hnext _) (by rw [hall2]; simp [failResponse, hinv])
        refine ⟨st2, ?_, ?_, hsucc⟩
        · show runFlowNodes resolveAdapter execOracle nodes edges task_id total
            (node_id :: rest) idx st = some st2
          simp only [runFlowNodes, hnode, hra, hexec]
          exact hrun
        · rw [hkeys]
          simp only [hkeys2]
          simp
      | ok result =>
        obtain ⟨st2, hrun, hkeys, hsucc⟩ := ih (idx + 1)
          ⟨aset st.node_results node_id
            ⟨result.success, result.message, result.data, result.stats,
              result.output_path, []⟩,
            (if result.success then st.all_success else false),
            (if (optTruthy (get_upstream_output node_id edges st.node_results) &&
                !(containsKey node.config "path")) = true then
              (st.events ++ [Event.status task_id (some node_id) "running"
                ("执行节点 " ++ toString (idx + 1) ++ "/" ++ toString total)]) ++
                [Event.log task_id (some node_id)
                  ("使用上游输出路径: " ++
                    (get_upstream_output node_id edges st.node_results).getD "")]
            else
              st.events ++ [Event.status task_id (some node_id) "running"
                ("执行节点 " ++ toString (idx + 1) ++ "/" ++ toString total)]) ++
            [Event.status task_id (some node_id)
              (if result.success then "completed" else "error") result.message]⟩
          hcov2 hnd2.2 (hnext _)
          (by
            rw [hall2]
            cases hrs : result.success <;> simp [hrs, hinv])
        refine ⟨st2, ?_, ?_, hsucc⟩
        · show runFlowNodes resolveAdapter execOracle nodes edges task_id total
            (node_id :: rest) idx st = some st2
          simp only [runFlowNodes, hnode, hra, hexec]
          exact hrun
        · rw [hkeys]
          simp only [hkeys2]
          simp

theorem execute_flow_unfold_ok (setOrder : List String)
    (resolveAdapter : String → Except String Unit)
    (execOracle : String → List (String × JVal) → Except String AdapterOutput)
    (nodes : List FlowNode) (edges : List FlowEdge) (task_id : String)
    (order : List String) (hne : ¬ nodes.isEmpty = true)
    (hts : topological_sort setOrder edges = Except.ok order) :
    execute_flow setOrder resolveAdapter execOracle nodes edges task_id =
      (match runFlowNodes resolveAdapter execOracle nodes edges task_id
          order.length order 0
          ⟨[], true,
            [Event.status task_id none "running"
                ("开始执行流程，共 " ++ toString nodes.length ++ " 个节点"),
              Event.log task_id none
                ("执行顺序: " ++ String.intercalate " → " order)]⟩ with
        | none => none
        | some st =>
          some (⟨st.all_success,
              (if st.all_success then "流程执行完成" else "部分节点执行失败"),
              st.node_results, order⟩,
            st.events ++ [Event.status task_id none
              (if st.all_success then "completed" else "error")
              (if st.all_success then "流程执行完成" else "部分节点执行失败")])) := by
  rw [execute_flow, if_neg hne, hts]

/-- Claim C4: for every flow execution over a schedulable graph, every
scheduled node is executed, in scheduled order, and the response carries
exactly one committed result per scheduled node — stored whether the step
returned a failed output or raised — so a failed node never prevents the
remaining nodes from executing; the flow reports success exactly when
every per-node result succeeded. -/
theorem C4_execute_flow_all_nodes (setOrder : List String)
    (resolveAdapter : String → Except String Unit)
    (execOracle : String → List (String × JVal) → Except String AdapterOutput)
    (nodes : List FlowNode) (edges : List FlowEdge) (task_id : String)
    (order : List String)
    (hso : SetOrderOf setOrder nodes)
    (hts : topological_sort setOrder edges = Except.ok order) :
    ∃ resp events,
      execute_flow setOrder resolveAdapter execOracle nodes edges task_id =
        some (resp, events) ∧
      resp.execution_order = order ∧
      resp.node_results.map Prod.fst = order ∧
      (resp.success = true ↔
        ∀ p ∈ resp.node_results, p.2.success = true) := by
  have hperm := topological_sort_ok_perm setOrder edges order hso.1 hts
  by_cases hn0 : nodes.isEmpty = true
  · have hnodes : nodes = [] := by
      cases nodes with
      | nil => rfl
      | cons a l => simp [List.isEmpty] at hn0
    have hsetnil : setOrder = [] := by
      have h2 := hso.2
      rw [hnodes] at h2
      simpa using h2.eq_nil
    have hord : order = [] := by
      have h2 := hperm
      rw [hsetnil] at h2
      exact h2.eq_nil
    refine ⟨⟨true, "流程为空，无需执行", [], []⟩, [], ?_, by simp [hord], by simp [hord], by simp⟩
    rw [execute_flow, if_pos hn0]
  · have hcov : ∀ i ∈ order, ∃ n ∈ nodes, n.id = i := by
      intro i hi
      have h1 : i ∈ setOrder := hperm.mem_iff.mp hi
      have h2 : i ∈ (nodes.map FlowNode.id).dedup := (hso.2.mem_iff).mp h1
      have h3 : i ∈ nodes.map FlowNode.id := List.mem_dedup.mp h2
      obtain ⟨n, hn, hni⟩ := List.mem_map.mp h3
      exact ⟨n, hn, hni⟩
    have hnd : order.Nodup := hperm.nodup_iff.mpr hso.1
    obtain ⟨st2, hrun, hkeys, hsucc⟩ := runFlowNodes_spec resolveAdapter
      execOracle nodes edges task_id order.length order 0
      ⟨[], true,
        [Event.status task_id none "running"
            ("开始执行流程，共 " ++ toString nodes.length ++ " 个节点"),
          Event.log task_id none
            ("执行顺序: " ++ String.intercalate " → " order)]⟩
      hcov hnd (by intro i _; rfl) (by rfl)
    refine ⟨⟨st2.all_success,
        (if st2.all_success then "流程执行完成" else "部分节点执行失败"),
        st2.node_results, order⟩,
      st2.events ++ [Event.status task_id none
        (if st2.all_success then "completed" else "error")
        (if st2.all_success then "流程执行完成" else "部分节点执行失败")],
      ?_, rfl, by simpa using hkeys, ?_⟩
    · rw [execute_flow_unfold_ok setOrder resolveAdapter execOracle nodes edges
        task_id order hn0 hts, hrun]
    · show st2.all_success = true ↔ ∀ p ∈ st2.node_results, p.2.success = true
      rw [hsucc]
      exact List.all_eq_true

/-- Witness for C4: a two-node edgeless flow whose adapter step always
raises; both nodes still get committed (failed) results and the flow
reports failure. -/
theorem C4_execute_flow_all_nodes_witness :
    ∃ resp events,
      execute_flow ["A", "B"] (fun _ => Except.ok ())
          (fun _ _ => Except.error "ValueError: boom")
          [FlowNode.mk "A" "t1" [], FlowNode.mk "B" "t2" []] [] "T" =
        some (resp, events) ∧
      resp.execution_order = ["A", "B"] ∧
      resp.node_results.map Prod.fst = ["A", "B"] ∧
      (resp.success = true ↔
        ∀ p ∈ resp.node_results, p.2.success = true) :=
  C4_execute_flow_all_nodes ["A", "B"] (fun _ => Except.ok ())
    (fun _ _ => Except.error "ValueError: boom")
    [FlowNode.mk "A" "t1" [], FlowNode.mk "B" "t2" []] [] "T" ["A", "B"]
    ⟨by decide, by decide⟩ (topological_sort_nil_edges ["A", "B"] (by decide))

/-- Claim C10: submitting a flow with an empty node list returns success with
empty results and order immediately, for every scheduler set order,
adapter resolver and execution oracle, and emits no event at all. -/
theorem C10_empty_flow (setOrder : List String)
    (resolveAdapter : String → Except String Unit)
    (execOracle : String → List (String × JVal) → Except String AdapterOutput)
    (edges : List FlowEdge) (task_id : String) :
    execute_flow setOrder resolveAdapter execOracle [] edges task_id =
      some (⟨true, "流程为空，无需执行", [], []⟩, []) := rfl

/-! ## Claim C6: safe_execute -/

theorem append_ne_empty (pre m : String) (hp : pre.length ≠ 0) :
    pre ++ m ≠ "" := by
  intro hc
  have h1 := congrArg String.length hc
  rw [String.length_append] at h1
  have h2 : ("" : String).length = 0 := rfl
  omega

/-- Claim C6, amended: `safe_execute` converts every exception caught by its
`except` clauses into a returned `AdapterOutput` with `success=false`
instead of propagating it; the message is non-empty except when the
adapter raised an `AdapterError` with an empty message, which is passed
through verbatim. -/
theorem C6_safe_execute_catches (oc : ExecOutcome) (h : isRaise oc = true) :
    (safe_execute oc).success = false ∧
      (isEmptyAdapterError oc = false → (safe_execute oc).message ≠ "") := by
  cases oc with
  | ret out => cases h
  | raiseImportError m =>
    exact ⟨rfl, fun _ => append_ne_empty _ m (by decide)⟩
  | raiseFileNotFound m =>
    exact ⟨rfl, fun _ => append_ne_empty _ m (by decide)⟩
  | raisePermissionError m =>
    exact ⟨rfl, fun _ => append_ne_empty _ m (by decide)⟩
  | raiseAdapterError m d =>
    refine ⟨rfl, fun hne => ?_⟩
    intro hm
    rw [show (safe_execute (ExecOutcome.raiseAdapterError m d)).message = m
      from rfl] at hm
    subst hm
    cases hne
  | raiseOther ty m =>
    refine ⟨rfl, fun _ => ?_⟩
    show "执行异常: " ++ ty ++ ": " ++ m ≠ ""
    apply append_ne_empty
    rw [String.length_append, String.length_append]
    have : ("执行异常: " : String).length = 6 := by decide
    omega

/-- Witness for C6: an unexpected `RuntimeError` is converted into a
failed output with a non-empty message. -/
theorem C6_safe_execute_catches_witness :
    (safe_execute (ExecOutcome.raiseOther "RuntimeError" "boom")).success =
        false ∧
      (isEmptyAdapterError (ExecOutcome.raiseOther "RuntimeError" "boom") =
          false →
        (safe_execute
          (ExecOutcome.raiseOther "RuntimeError" "boom")).message ≠ "") :=
  C6_safe_execute_catches (ExecOutcome.raiseOther "RuntimeError" "boom") rfl

/-- Counterexample for C6 as stated: an adapter raising
`AdapterError("")` yields a caught, failed output whose message is the
empty string — not the claimed non-empty message. -/
theorem C6_counterexample :
    isRaise (ExecOutcome.raiseAdapterError "" []) = true ∧
      (safe_execute (ExecOutcome.raiseAdapterError "" [])).success = false ∧
      (safe_execute (ExecOutcome.raiseAdapterError "" [])).message = "" :=
  ⟨rfl, rfl, rfl⟩

/-! ## Claim C7: the adapter registry -/

/-- Claim C7: `get_adapter` fails with the unknown-adapter `ValueError` for a
name neither cached nor registered; a successful load is memoized (any
later call returns the same cached instance and leaves the cache alone);
a failed load leaves the cache unchanged — so a later call for the same
name retries the load, and resolution of every other name is unaffected;
and for an uncached registered name the outcome is exactly the outcome
of the load of its registered path. -/
theorem C7_get_adapter_contract
    (load load2 : String → Except String AdapterInstance)
    (cache : List (String × AdapterInstance)) (name : String) :
    (alookup cache name = none → alookup ADAPTER_REGISTRY name = none →
      get_adapter load cache name =
        (.valueError ("未知的适配器: " ++ name), cache)) ∧
    (∀ inst cache2, get_adapter load cache name = (.ok inst, cache2) →
      get_adapter load2 cache2 name = (.ok inst, cache2)) ∧
    (∀ msg cache2, get_adapter load cache name = (.importError msg, cache2) →
      cache2 = cache) ∧
    (∀ path, alookup cache name = none →
      alookup ADAPTER_REGISTRY name = some path →
      get_adapter load cache name =
        (match load path with
         | .ok inst => (.ok inst, aset cache name inst)
         | .error e =>
            (.importError ("导入适配器 " ++ name ++ " 失败: " ++ e), cache))) := by
  refine ⟨?_, ?_, ?_, ?_⟩
  · intro h1 h2
    simp [get_adapter, h1, h2]
  · intro inst cache2 h
    cases hc : alookup cache name with
    | some i =>
      simp only [get_adapter, hc] at h
      injection h with ha hb
      injection ha with ha2
      subst hb
      simp [get_adapter, hc, ha2]
    | none =>
      cases hr : alookup ADAPTER_REGISTRY name with
      | none => simp [get_adapter, hc, hr] at h
      | some path =>
        cases hl : load path with
        | ok i =>
          simp only [get_adapter, hc, hr, hl] at h
          injection h with ha hb
          injection ha with ha2
          subst ha2
          subst hb
          simp [get_adapter, alookup_aset_self]
        | error e => simp [get_adapter, hc, hr, hl] at h
  · intro msg cache2 h
    cases hc : alookup cache name with
    | some i => simp [get_adapter, hc] at h
    | none =>
      cases hr : alookup ADAPTER_REGISTRY name with
      | none => simp [get_adapter, hc, hr] at h
      | some path =>
        cases hl : load path with
        | ok i => simp [get_adapter, hc, hr, hl] at h
        | error e =>
          simp only [get_adapter, hc, hr, hl] at h
          injection h with ha hb
          exact hb.symm
  · intro path h1 h2
    cases hl : load path with
    | ok i => simp [get_adapter, h1, h2, hl]
    | error e => simp [get_adapter, h1, h2, hl]

/-- Witness for C7: an unregistered name fails with the unknown-adapter
error; a successful load of `repacku` is memoized against any second
loader; a failed load of `repacku` leaves the cache unchanged; and an
uncached registered name follows the load outcome. -/
theorem C7_get_adapter_contract_witness :
    get_adapter (fun _ => Except.error "no module") [] "zzz" =
        (.valueError ("未知的适配器: " ++ "zzz"), []) ∧
      get_adapter (fun _ => Except.error "other")
          (aset [] "repacku" ⟨7⟩) "repacku" =
        (.ok ⟨7⟩, aset [] "repacku" ⟨7⟩) ∧
      ([] : List (String × AdapterInstance)) = [] ∧
      get_adapter (fun _ => Except.error "no module") [] "repacku" =
        (match (fun (_ : String) => Except.error (ε := String)
            (α := AdapterInstance) "no module")
            "adapters.repacku_adapter.RepackuAdapter" with
         | .ok inst => (.ok inst, aset [] "repacku" inst)
         | .error e =>
            (.importError ("导入适配器 " ++ "repacku" ++ " 失败: " ++ e), [])) := by
  refine ⟨?_, ?_, ?_, ?_⟩
  · exact (C7_get_adapter_contract (fun _ => Except.error "no module")
      (fun _ => Except.error "no module") [] "zzz").1 rfl rfl
  · exact (C7_get_adapter_contract (fun _ => Except.ok ⟨7⟩)
      (fun _ => Except.error "other") [] "repacku").2.1 ⟨7⟩
      (aset [] "repacku" ⟨7⟩) rfl
  · exact (C7_get_adapter_contract (fun _ => Except.error "no module")
      (fun _ => Except.error "no module") [] "repacku").2.2.1
      ("导入适配器 " ++ "repacku" ++ " 失败: " ++ "no module") [] rfl
  · exact (C7_get_adapter_contract (fun _ => Except.error "no module")
      (fun _ => Except.error "no module") [] "repacku").2.2.2
      "adapters.repacku_adapter.RepackuAdapter" rfl rfl

/-! ## Claim C8: the event fan-out keeps no backlog -/

theorem mem_aset_cases {β : Type} (m : List (String × β)) (k : String) (v : β)
    (p : String × β) (h : p ∈ aset m k v) : p ∈ m ∨ p = (k, v) := by
  induction m with
  | nil => simpa [aset] using h
  | cons hd tl ih =>
    obtain ⟨a, c⟩ := hd
    by_cases hak : a = k
    · simp only [aset, if_pos hak, List.mem_cons] at h
      rcases h with h | h
      · right
        rw [h, hak]
      · exact Or.inl (List.mem_cons_of_mem _ h)
    · simp only [aset, if_neg hak, List.mem_cons] at h
      rcases h with h | h
      · exact Or.inl (List.mem_cons.mpr (Or.inl h))
      · rcases ih h with h2 | h2
        · exact Or.inl (List.mem_cons_of_mem _ h2)
        · exact Or.inr h2

theorem mem_setAdd (l : List Nat) (x y : Nat) :
    y ∈ setAdd l x ↔ (y ∈ l ∨ y = x) := by
  rw [setAdd]
  by_cases hc : l.contains x
  · rw [if_pos hc]
    simp only [List.contains, List.elem_eq_mem, decide_eq_true_eq] at hc
    constructor
    · exact Or.inl
    · rintro (h | rfl)
      · exact h
      · exact hc
  · rw [if_neg hc]
    simp

theorem wsAbsent_iff (st : ConnManagerState) (ws : Nat) :
    wsAbsent st ws = true ↔
      (ws ∉ st.globals ∧ ∀ p ∈ st.active, ws ∉ p.2) := by
  rw [wsAbsent]
  simp [List.contains, List.elem_eq_mem, List.all_eq_true]

theorem wsAbsent_connect (st : ConnManagerState) (w : Nat)
    (task : Option String) (ws : Nat) (hne : ws ≠ w)
    (h : wsAbsent st ws = true) :
    wsAbsent (cmConnect st w task) ws = true := by
  rw [wsAbsent_iff] at h ⊢
  obtain ⟨hg, ha⟩ := h
  cases task with
  | none =>
    refine ⟨?_, ha⟩
    rw [cmConnect]
    intro hc
    rcases (mem_setAdd st.globals w ws).mp hc with h2 | h2
    · exact hg h2
    · exact hne h2
  | some t =>
    cases halt : alookup st.active t with
    | some conns =>
      simp only [cmConnect, halt]
      refine ⟨hg, ?_⟩
      intro p hp
      rcases mem_aset_cases _ _ _ _ hp with h2 | h2
      · exact ha p h2
      · rw [h2]
        intro hc
        rcases (mem_setAdd conns w ws).mp hc with h3 | h3
        · exact ha (t, conns) (alookup_mem _ _ _ halt) h3
        · exact hne h3
    | none =>
      simp only [cmConnect, halt]
      refine ⟨hg, ?_⟩
      intro p hp
      rcases mem_aset_cases _ _ _ _ hp with h2 | h2
      · exact ha p h2
      · rw [h2]
        simpa using hne

theorem wsAbsent_disconnect (st : ConnManagerState) (w : Nat)
    (task : Option String) (ws : Nat) (h : wsAbsent st ws = true) :
    wsAbsent (cmDisconnect st w task) ws = true := by
  rw [wsAbsent_iff] at h ⊢
  obtain ⟨hg, ha⟩ := h
  have hgf : ∀ q : Nat → Bool, ws ∉ st.globals.filter q := by
    intro q hc
    exact hg (List.mem_of_mem_filter hc)
  cases task with
  | none =>
    simp only [cmDisconnect]
    exact ⟨hgf _, ha⟩
  | some t =>
    cases halt : alookup st.active t with
    | some conns =>
      by_cases hemp : (conns.filter (fun x => x != w)).isEmpty = true
      · simp only [cmDisconnect, halt, if_pos hemp]
        refine ⟨hg, ?_⟩
        intro p hp
        exact ha p (List.mem_of_mem_filter hp)
      · simp only [cmDisconnect, halt, if_neg hemp]
        refine ⟨hg, ?_⟩
        intro p hp
        rcases mem_aset_cases _ _ _ _ hp with h2 | h2
        · exact ha p h2
        · rw [h2]
          intro hc
          exact ha (t, conns) (alookup_mem _ _ _ halt)
            (List.mem_of_mem_filter hc)
    | none =>
      simp only [cmDisconnect, halt]
      exact ⟨hgf _, ha⟩

theorem ws_not_recipient (st : ConnManagerState) (task : String) (ws : Nat)
    (h : wsAbsent st ws = true) : ws ∉ cmRecipients st task := by
  rw [wsAbsent_iff] at h
  obtain ⟨hg, ha⟩ := h
  rw [cmRecipients]
  intro hc
  rcases List.mem_append.mp hc with h2 | h2
  · cases halt : alookup st.active task with
    | some conns =>
      rw [halt] at h2
      exact ha (task, conns) (alookup_mem _ _ _ halt) h2
    | none =>
      rw [halt] at h2
      cases h2
  · exact hg (List.mem_of_mem_filter h2)

theorem deliveredTo_append (ws : Nat) (d1 d2 : List (Nat × String)) :
    deliveredTo ws (d1 ++ d2) = deliveredTo ws d1 ++ deliveredTo ws d2 := by
  simp [deliveredTo]

theorem deliveredTo_map_ne (ws : Nat) (l : List Nat) (msg : String)
    (h : ws ∉ l) : deliveredTo ws (l.map (fun w => (w, msg))) = [] := by
  induction l with
  | nil => rfl
  | cons a rest ih =>
    have hne : (a == ws) = false := by
      simp only [beq_eq_false_iff_ne]
      rintro rfl
      exact h (List.mem_cons_self _ _)
    rw [List.map_cons, deliveredTo, List.filter_cons]
    simp only [hne, Bool.false_eq_true, if_false]
    exact ih (fun hc => h (List.mem_cons_of_mem _ hc))

theorem runWsOps_append (l1 l2 : List WsOp) :
    ∀ st : ConnManagerState,
      runWsOps st (l1 ++ l2) =
        ((runWsOps (runWsOps st l1).1 l2).1,
          (runWsOps st l1).2 ++ (runWsOps (runWsOps st l1).1 l2).2) := by
  induction l1 with
  | nil => intro st; simp [runWsOps]
  | cons op rest ih =>
    intro st
    cases op with
    | connect w task => simp [runWsOps, ih]
    | disconnect w task => simp [runWsOps, ih]
    | publish task msg => simp [runWsOps, ih]

theorem runWsOps_silent (ops : List WsOp) :
    ∀ (st : ConnManagerState) (ws : Nat), wsAbsent st ws = true →
      neverConnects ws ops = true →
      wsAbsent (runWsOps st ops).1 ws = true ∧
        deliveredTo ws (runWsOps st ops).2 = [] := by
  induction ops with
  | nil => intro st ws h _; exact ⟨h, rfl⟩
  | cons op rest ih =>
    intro st ws h hnc
    rw [neverConnects, List.all_cons, Bool.and_eq_true] at hnc
    have hrest : neverConnects ws rest = true := hnc.2
    cases op with
    | connect w task =>
      have hne : ws ≠ w := by
        have := hnc.1
        simp only [ne_eq, bne_iff_ne] at this
        exact fun hc => this hc.symm
      have h2 := wsAbsent_connect st w task ws hne h
      simpa [runWsOps] using ih (cmConnect st w task) ws h2 hrest
    | disconnect w task =>
      have h2 := wsAbsent_disconnect st w task ws h
      simpa [runWsOps] using ih (cmDisconnect st w task) ws h2 hrest
    | publish task msg =>
      have h3 := ih st ws h hrest
      have hrec := ws_not_recipient st task ws h
      constructor
      · simpa [runWsOps] using h3.1
      · show deliveredTo ws
          ((cmRecipients st task).map (fun w => (w, msg)) ++
            (runWsOps st rest).2) = []
        rw [deliveredTo_append, deliveredTo_map_ne ws _ msg hrec, h3.2]
        rfl

/-- Claim C8, amended: the connection manager stores no events at all, so a
subscriber that connects after events were published receives none of
them — everything a socket ever receives comes from publishes issued
after it connected: the delivery log of a socket absent during a first
phase of operations equals its delivery log of the remaining phase
alone. -/
theorem C8_no_backlog_replay (st : ConnManagerState) (ops1 ops2 : List WsOp)
    (ws : Nat) (habs : wsAbsent st ws = true)
    (hnc : neverConnects ws ops1 = true) :
    deliveredTo ws (runWsOps st (ops1 ++ ops2)).2 =
      deliveredTo ws (runWsOps (runWsOps st ops1).1 ops2).2 := by
  rw [runWsOps_append]
  show deliveredTo ws ((runWsOps st ops1).2 ++
    (runWsOps (runWsOps st ops1).1 ops2).2) = _
  rw [deliveredTo_append, (runWsOps_silent ops1 st ws habs hnc).2]
  rfl

/-- Witness for C8 (amended): socket 7 connects only after `e1` was
published; its delivery log is exactly the log of the later phase. -/
theorem C8_no_backlog_replay_witness :
    deliveredTo 7 (runWsOps ⟨[], []⟩
        ([WsOp.publish "t" "e1"] ++
          [WsOp.connect 7 (some "t"), WsOp.publish "t" "e2"])).2 =
      deliveredTo 7 (runWsOps
        (runWsOps ⟨[], []⟩ [WsOp.publish "t" "e1"]).1
        [WsOp.connect 7 (some "t"), WsOp.publish "t" "e2"]).2 :=
  C8_no_backlog_replay ⟨[], []⟩ [WsOp.publish "t" "e1"]
    [WsOp.connect 7 (some "t"), WsOp.publish "t" "e2"] 7 rfl rfl

/-- Counterexample for C8 as stated: an event (`e1`) published before
socket 7 subscribes is never replayed to it — the socket receives only
`e2`, although a backlog bound of about 50 would cover `e1`.  The
manager state has no event store, so no replay is possible. -/
theorem C8_counterexample :
    deliveredTo 7 (runWsOps ⟨[], []⟩
      [WsOp.publish "t" "e1", WsOp.connect 7 (some "t"),
        WsOp.publish "t" "e2"]).2 = ["e2"] ∧
      ("e1" : String) ≠ "e2" := by
  refine ⟨rfl, by decide⟩

/-! ## Claim C9: terminal states in the task lifecycle -/

/-- Claim C9: the claim fails on the code.  Under the cooperative interleaving
run-start, cancel, runner-resume, runner-finish, the task status reaches
the terminal state `cancelled` and is later overwritten with `completed`
by the placeholder runner, which never re-checks the status before
finishing — a transition out of a terminal state. -/
theorem C9_terminal_state_overwritten :
    execSched TStatus.pending runnerSegs [cancelSeg]
        [true, false, true, true] =
      [TStatus.running, TStatus.cancelled, TStatus.cancelled,
        TStatus.completed] ∧
      isTerminal TStatus.cancelled = true ∧
      isTerminal TStatus.completed = true := ⟨rfl, rfl, rfl⟩

end Aestivus
